import Mathlib

/-!
Shallow embedding of the deflate-rs compressor core (src/lib.rs and
src/matching.rs) together with proofs about its bit writer, block headers
and LZ77 match finder.  Machine integers (`u8`, `u16`, `u32`, `usize`) are
modelled as `Nat` with explicit `% 2 ^ w` at the points where the Rust code
can wrap; byte buffers are `List Nat`; Rust panics (out-of-range slice
indexing, explicit `panic!`) are modelled by `Option`.
-/

set_option maxHeartbeats 4000000
set_option maxRecDepth 100000

namespace Deflate

/-! ### BitWriter (src/lib.rs, lines 33-80) -/

/-- State of `BitWriter`: `bit_position: u8`, `accumulator: u32`,
`buffer: Vec<u8>`. -/
structure BitWriter where
  bitPosition : Nat
  accumulator : Nat
  buffer : List Nat
deriving DecidableEq

/-- `BitWriter::new`. -/
def BitWriter.new : BitWriter := ⟨0, 0, []⟩

/-- The `while self.bit_position >= 8` loop inside `write_bits`: push the low
byte of the accumulator and shift, until fewer than 8 bits remain.  The first
argument is structural-recursion fuel; each iteration removes 8 bits, so any
fuel with `bp ≤ 8 * fuel + 7` (in particular `fuel = bp`) runs the loop to
completion and the guard then makes the function the exact while loop. -/
def flushLoop : Nat → Nat → Nat → List Nat → Nat × Nat × List Nat
  | 0, bp, acc, buf => (bp, acc, buf)
  | fuel + 1, bp, acc, buf =>
    if 8 ≤ bp then flushLoop fuel (bp - 8) (acc / 256) (buf ++ [acc % 256])
    else (bp, acc, buf)

/-- `BitWriter::write_bits(bits: u16, size: u8)`.  The source does
`accumulator |= (bits as u32) << bit_position; bit_position += size;` and then
flushes whole bytes.  `bits` is a `u16` value (hence `% 65536`), the
accumulator a `u32` (hence `% 2^32`), `bit_position` a `u8` (hence `% 256`). -/
def BitWriter.write_bits (w : BitWriter) (bits size : Nat) : BitWriter :=
  if size = 0 then w
  else
    let acc := (w.accumulator ||| ((bits % 65536) <<< w.bitPosition)) % 4294967296
    let bp := (w.bitPosition + size) % 256
    let r := flushLoop bp bp acc w.buffer
    ⟨r.1, r.2.1, r.2.2⟩

/-- `BitWriter::finish`.  `none` models the `panic!` branch taken when more
than 7 bits are pending; otherwise a pending partial byte is pushed. -/
def BitWriter.finish (w : BitWriter) : Option BitWriter :=
  if 7 < w.bitPosition then none
  else if w.bitPosition ≠ 0 then
    some ⟨w.bitPosition, w.accumulator, w.buffer ++ [w.accumulator % 256]⟩
  else some w

/-! ### Logical bit-stream semantics for the writer -/

/-- The low `n` bits of `v`, least significant first. -/
def lowBits (v : Nat) : Nat → List Nat
  | 0 => []
  | n + 1 => v % 2 :: lowBits (v / 2) n

/-- All bits of a byte buffer, each byte LSB-first. -/
def bytesBits : List Nat → List Nat
  | [] => []
  | b :: rest => lowBits b 8 ++ bytesBits rest

/-- The logical bit stream held by a writer state: the bits already flushed to
the buffer followed by the pending bits of the accumulator. -/
def streamBits (w : BitWriter) : List Nat :=
  bytesBits w.buffer ++ lowBits w.accumulator w.bitPosition

/-- Writer invariant: at most 7 bits pending and the accumulator holds exactly
the pending bits (no stray high bits). -/
def WriterInv (w : BitWriter) : Prop :=
  w.bitPosition ≤ 7 ∧ w.accumulator < 2 ^ w.bitPosition

/-- The bit stream described by a list of `(value, width)` calls: each call
contributes the low `width` bits of `value`, least significant first. -/
def callBits : List (Nat × Nat) → List Nat
  | [] => []
  | c :: cs => lowBits c.1 c.2 ++ callBits cs

/-- Run a sequence of `write_bits(value, width)` calls from `BitWriter::new()`. -/
def runWriter (calls : List (Nat × Nat)) : BitWriter :=
  calls.foldl (fun w c => w.write_bits c.1 c.2) BitWriter.new

/-! ### Basic lemmas about `lowBits` -/

theorem lowBits_length (v n : Nat) : (lowBits v n).length = n := by
  induction n generalizing v with
  | zero => rfl
  | succ n ih => simp [lowBits, ih]

theorem lowBits_split (m n v : Nat) :
    lowBits v (m + n) = lowBits (v % 2 ^ m) m ++ lowBits (v / 2 ^ m) n := by
  induction m generalizing v with
  | zero =>
    simp [lowBits, Nat.mod_one, Nat.zero_add]
  | succ m ih =>
    have h1 : v % 2 ^ (m + 1) % 2 = v % 2 := by
      rw [Nat.mod_mod_of_dvd]
      exact ⟨2 ^ m, by ring⟩
    have h2 : v % 2 ^ (m + 1) / 2 = v / 2 % 2 ^ m := by
      rw [pow_succ, mul_comm, Nat.mod_mul_right_div_self]
    have h3 : v / 2 ^ (m + 1) = v / 2 / 2 ^ m := by
      rw [pow_succ, mul_comm, Nat.div_div_eq_div_mul]
    have hadd : m + 1 + n = (m + n) + 1 := by omega
    rw [hadd]
    show v % 2 :: lowBits (v / 2) (m + n) = _
    rw [ih (v / 2)]
    show _ = v % 2 ^ (m + 1) % 2 :: (lowBits (v % 2 ^ (m + 1) / 2) m ++ _)
    rw [h1, h2, h3]

theorem bytesBits_append (a b : List Nat) :
    bytesBits (a ++ b) = bytesBits a ++ bytesBits b := by
  induction a with
  | nil => rfl
  | cons x xs ih => simp [bytesBits, ih]

theorem bytesBits_length (a : List Nat) : (bytesBits a).length = 8 * a.length := by
  induction a with
  | nil => rfl
  | cons x xs ih => simp [bytesBits, lowBits_length, ih]; omega

/-- Or-ing a value shifted past the top of a small accumulator is addition. -/
theorem lor_mul_two_pow_eq_add (k a b : Nat) (ha : a < 2 ^ k) :
    a ||| 2 ^ k * b = a + 2 ^ k * b := by
  apply Nat.eq_of_testBit_eq
  intro i
  rw [Nat.testBit_lor]
  rcases Nat.lt_or_ge i k with hik | hik
  · have hdvd : (2 : Nat) ^ i ∣ 2 ^ k := pow_dvd_pow 2 (le_of_lt hik)
    have hmul : 2 ^ k * b = 2 ^ i * (2 ^ (k - i) * b) := by
      rw [← mul_assoc, ← pow_add]
      congr 2
      omega
    have heven : (2 ^ (k - i) * b) % 2 = 0 := by
      have : (2 : Nat) ^ (k - i) * b = 2 * (2 ^ (k - i - 1) * b) := by
        rw [← mul_assoc, ← pow_succ']
        congr 2
        omega
      omega
    have h1 : Nat.testBit (2 ^ k * b) i = false := by
      rw [hmul, Nat.testBit_to_div_mod]
      rw [Nat.mul_div_cancel_left _ (Nat.two_pow_pos i)]
      simp [heven]
    have h2 : Nat.testBit (a + 2 ^ k * b) i = Nat.testBit a i := by
      rw [Nat.testBit_to_div_mod, Nat.testBit_to_div_mod]
      rw [hmul, mul_comm (2 ^ i), Nat.add_mul_div_right _ _ (Nat.two_pow_pos i)]
      simp only [decide_eq_decide]
      omega
    rw [h1, h2, Bool.or_false]
  · have ha' : Nat.testBit a i = false :=
      Nat.testBit_lt_two_pow (lt_of_lt_of_le ha (Nat.pow_le_pow_right (by omega) hik))
    have h2 : Nat.testBit (a + 2 ^ k * b) i = Nat.testBit (2 ^ k * b) i := by
      rw [Nat.testBit_to_div_mod, Nat.testBit_to_div_mod]
      have hsplit : 2 ^ i = 2 ^ k * 2 ^ (i - k) := by
        rw [← pow_add]
        congr 1
        omega
      rw [hsplit, ← Nat.div_div_eq_div_mul, ← Nat.div_div_eq_div_mul]
      rw [Nat.add_mul_div_left _ _ (Nat.two_pow_pos k), Nat.div_eq_of_lt ha, Nat.zero_add]
      rw [Nat.mul_div_cancel_left _ (Nat.two_pow_pos k)]
    rw [ha', h2, Bool.false_or]

/-- Core property of the flush loop: with enough fuel it preserves the
logical bit stream, leaves fewer than 8 bits pending, and keeps the
accumulator exact. -/
theorem flushLoop_spec (fuel : Nat) : ∀ bp acc buf, bp ≤ 8 * fuel + 7 →
    (flushLoop fuel bp acc buf).1 ≤ 7 ∧
    (bytesBits (flushLoop fuel bp acc buf).2.2 ++
      lowBits (flushLoop fuel bp acc buf).2.1 (flushLoop fuel bp acc buf).1 =
      bytesBits buf ++ lowBits acc bp) ∧
    (acc < 2 ^ bp → (flushLoop fuel bp acc buf).2.1 < 2 ^ (flushLoop fuel bp acc buf).1) := by
  induction fuel with
  | zero =>
    intro bp acc buf hbp
    exact ⟨show bp ≤ 7 by omega, rfl, fun hlt => hlt⟩
  | succ fuel ih =>
    intro bp acc buf hbp
    by_cases h : 8 ≤ bp
    · simp only [flushLoop, if_pos h]
      obtain ⟨ha, hb, hc⟩ := ih (bp - 8) (acc / 256) (buf ++ [acc % 256]) (by omega)
      refine ⟨ha, ?_, ?_⟩
      · rw [hb, bytesBits_append]
        have hsplit : bp = 8 + (bp - 8) := by omega
        rw [hsplit, lowBits_split 8 (bp - 8) acc]
        show _ ++ (lowBits (acc % 256) 8 ++ []) ++ _ = _
        simp
      · intro hlt
        apply hc
        rw [Nat.div_lt_iff_lt_mul (by norm_num : (0:Nat) < 256)]
        calc acc < 2 ^ bp := hlt
          _ = 2 ^ (bp - 8) * 256 := by
              rw [show (256:Nat) = 2 ^ 8 by norm_num, ← pow_add]
              congr 1
              omega
    · simp only [flushLoop, if_neg h]
      exact ⟨show bp ≤ 7 by omega, by trivial, fun hlt => hlt⟩

/-- One `write_bits` call appends exactly the low `size` bits of `bits` to the
logical stream and preserves the writer invariant, provided the value fits in
the width. -/
theorem write_bits_stream (w : BitWriter) (bits size : Nat)
    (hinv : WriterInv w) (hsize : size ≤ 16) (hfit : bits < 2 ^ size) :
    WriterInv (w.write_bits bits size) ∧
      streamBits (w.write_bits bits size) = streamBits w ++ lowBits bits size := by
  obtain ⟨hbp, hacc⟩ := hinv
  rw [BitWriter.write_bits]
  by_cases h0 : size = 0
  · subst h0
    have : bits = 0 := by omega
    subst this
    simp [lowBits, WriterInv, hbp, hacc]
  · simp only [if_neg h0]
    have hb16 : bits % 65536 = bits := by
      apply Nat.mod_eq_of_lt
      calc bits < 2 ^ size := hfit
        _ ≤ 2 ^ 16 := Nat.pow_le_pow_right (by omega) hsize
        _ = 65536 := by norm_num
    have hshift : (bits % 65536) <<< w.bitPosition = 2 ^ w.bitPosition * bits := by
      rw [hb16, Nat.shiftLeft_eq, mul_comm]
    have hor : w.accumulator ||| 2 ^ w.bitPosition * bits =
        w.accumulator + 2 ^ w.bitPosition * bits :=
      lor_mul_two_pow_eq_add _ _ _ hacc
    have hsum_lt : w.accumulator + 2 ^ w.bitPosition * bits <
        2 ^ (w.bitPosition + size) := by
      calc w.accumulator + 2 ^ w.bitPosition * bits
          < 2 ^ w.bitPosition + 2 ^ w.bitPosition * bits := by omega
        _ = 2 ^ w.bitPosition * (bits + 1) := by ring
        _ ≤ 2 ^ w.bitPosition * 2 ^ size := by
            apply Nat.mul_le_mul_left
            omega
        _ = 2 ^ (w.bitPosition + size) := by rw [← pow_add]
    have hlt32 : w.accumulator + 2 ^ w.bitPosition * bits < 4294967296 := by
      calc w.accumulator + 2 ^ w.bitPosition * bits < 2 ^ (w.bitPosition + size) := hsum_lt
        _ ≤ 2 ^ 23 := Nat.pow_le_pow_right (by omega) (by omega)
        _ < 4294967296 := by norm_num
    have hmod32 : (w.accumulator ||| (bits % 65536) <<< w.bitPosition) % 4294967296 =
        w.accumulator + 2 ^ w.bitPosition * bits := by
      rw [hshift, hor]
      exact Nat.mod_eq_of_lt hlt32
    have hmod256 : (w.bitPosition + size) % 256 = w.bitPosition + size :=
      Nat.mod_eq_of_lt (by omega)
    simp only [hmod32, hmod256]
    obtain ⟨h1, h2, h3⟩ := flushLoop_spec (w.bitPosition + size) (w.bitPosition + size)
      (w.accumulator + 2 ^ w.bitPosition * bits) w.buffer (by omega)
    constructor
    · exact ⟨h1, h3 hsum_lt⟩
    · show bytesBits _ ++ lowBits _ _ = _
      rw [h2]
      rw [lowBits_split w.bitPosition size]
      have hm : (w.accumulator + 2 ^ w.bitPosition * bits) % 2 ^ w.bitPosition =
          w.accumulator := by
        rw [mul_comm, Nat.add_mul_mod_self_right]
        exact Nat.mod_eq_of_lt hacc
      have hd : (w.accumulator + 2 ^ w.bitPosition * bits) / 2 ^ w.bitPosition = bits := by
        rw [mul_comm, Nat.add_mul_div_right _ _ (Nat.two_pow_pos _)]
        rw [Nat.div_eq_of_lt hacc, Nat.zero_add]
      rw [hm, hd, streamBits, List.append_assoc]

/-- Folding `write_bits` over a call list appends the concatenated call bits. -/
theorem foldl_write_bits_stream (calls : List (Nat × Nat)) : ∀ w : BitWriter,
    WriterInv w → (∀ c ∈ calls, c.2 ≤ 16 ∧ c.1 < 2 ^ c.2) →
    WriterInv (calls.foldl (fun w c => w.write_bits c.1 c.2) w) ∧
      streamBits (calls.foldl (fun w c => w.write_bits c.1 c.2) w) =
        streamBits w ++ callBits calls := by
  induction calls with
  | nil => intro w hw _; simpa [callBits] using hw
  | cons c cs ih =>
    intro w hw hall
    have hc := hall c (List.mem_cons_self c cs)
    obtain ⟨hinv', hstream'⟩ := write_bits_stream w c.1 c.2 hw hc.1 hc.2
    obtain ⟨hinv'', hstream''⟩ := ih (w.write_bits c.1 c.2) hinv'
      (fun d hd => hall d (List.mem_cons_of_mem c hd))
    refine ⟨hinv'', ?_⟩
    rw [List.foldl_cons] at *
    rw [hstream'', hstream', callBits, List.append_assoc]

/-- The invariant and stream equation for a run from `BitWriter::new()`. -/
theorem runWriter_stream (calls : List (Nat × Nat))
    (h : ∀ c ∈ calls, c.2 ≤ 16 ∧ c.1 < 2 ^ c.2) :
    WriterInv (runWriter calls) ∧ streamBits (runWriter calls) = callBits calls := by
  have hnew : WriterInv BitWriter.new := by
    constructor <;> simp [BitWriter.new]
  obtain ⟨h1, h2⟩ := foldl_write_bits_stream calls BitWriter.new hnew h
  refine ⟨h1, ?_⟩
  rw [runWriter, h2]
  simp [streamBits, BitWriter.new, bytesBits, lowBits]

/-! ### Indexing lemmas for the bit stream -/

theorem lowBits_getD (n : Nat) : ∀ v j, j < n →
    (lowBits v n).getD j 0 = v / 2 ^ j % 2 := by
  induction n with
  | zero => intro v j h; omega
  | succ n ih =>
    intro v j h
    cases j with
    | zero => simp [lowBits]
    | succ j =>
      show (lowBits (v / 2) n).getD j 0 = _
      rw [ih (v / 2) j (by omega)]
      rw [Nat.div_div_eq_div_mul, ← pow_succ']

theorem bytesBits_getD (buf : List Nat) : ∀ i j, i < buf.length → j < 8 →
    (bytesBits buf).getD (8 * i + j) 0 = buf.getD i 0 / 2 ^ j % 2 := by
  induction buf with
  | nil => intro i j h _; simp at h
  | cons b rest ih =>
    intro i j hi hj
    cases i with
    | zero =>
      show (lowBits b 8 ++ bytesBits rest).getD (8 * 0 + j) 0 = _
      rw [List.getD_append _ _ _ _ (by rw [lowBits_length]; omega)]
      simp only [Nat.mul_zero, Nat.zero_add]
      rw [lowBits_getD 8 b j hj]
      rfl
    | succ i =>
      show (lowBits b 8 ++ bytesBits rest).getD (8 * (i + 1) + j) 0 = _
      rw [List.getD_append_right _ _ _ _ (by rw [lowBits_length]; omega)]
      rw [lowBits_length]
      have harith : 8 * (i + 1) + j - 8 = 8 * i + j := by omega
      rw [harith, ih i j (by simpa using hi) hj]
      rfl

/-! ### Claims C6 and C7: bit-writer packing and `finish` -/

/-- C6 as stated is false: `write_bits` ORs the whole value into the
accumulator without masking it to `width` bits, so a value with bits above
`width` corrupts the stream.  With calls `(4,1)` then `(0,8)` (all widths in
[0,16]) bit 2 of byte 0 of the buffer is 1 while the 2nd bit written is 0. -/
theorem claim_C6_cex :
    (∀ c ∈ [((4:Nat),(1:Nat)), (0,8)], c.2 ≤ 16) ∧
    ¬ (∀ i < (runWriter [((4:Nat),(1:Nat)), (0,8)]).buffer.length, ∀ j < 8,
        (runWriter [((4:Nat),(1:Nat)), (0,8)]).buffer.getD i 0 / 2 ^ j % 2 =
        (callBits [((4:Nat),(1:Nat)), (0,8)]).getD (8 * i + j) 0) := by
  decide

/-- C6 (amended): for every sequence of `write_bits(value, width)` calls with
each width in [0,16] and each value fitting in its width, bit `j` of byte `i`
of the resulting buffer equals the `(8i+j)`-th bit written, where each call
contributes the low `width` bits of `value` least significant first. -/
theorem claim_C6 (calls : List (Nat × Nat))
    (h : ∀ c ∈ calls, c.2 ≤ 16 ∧ c.1 < 2 ^ c.2) :
    ∀ i < (runWriter calls).buffer.length, ∀ j < 8,
      (runWriter calls).buffer.getD i 0 / 2 ^ j % 2 =
      (callBits calls).getD (8 * i + j) 0 := by
  intro i hi j hj
  obtain ⟨_, hstream⟩ := runWriter_stream calls h
  rw [← hstream]
  rw [streamBits, List.getD_append _ _ _ _
    (by rw [bytesBits_length]; omega)]
  rw [bytesBits_getD _ i j hi hj]

/-- Witness for C6 at the calls `(5,3), (1,1), (300,9)`. -/
theorem claim_C6_witness :
    (∀ c ∈ [((5:Nat),(3:Nat)), (1,1), (300,9)], c.2 ≤ 16 ∧ c.1 < 2 ^ c.2) ∧
    (runWriter [((5:Nat),(3:Nat)), (1,1), (300,9)]).buffer.getD 0 0 / 2 ^ 2 % 2 =
      (callBits [((5:Nat),(3:Nat)), (1,1), (300,9)]).getD 2 0 :=
  ⟨by decide, claim_C6 _ (by decide) 0 (by decide) 2 (by decide)⟩

/-- C7 as stated is false on the zero-padding part: after the single call
`write_bits(2, 1)` (width 1 ∈ [0,16]) exactly one bit is pending, `finish`
appends the byte 2, and bit 1 of that byte is 1 rather than the zero padding
the claim promises above the single pending bit. -/
theorem claim_C7_cex :
    (∀ c ∈ [((2:Nat),(1:Nat))], c.2 ≤ 16) ∧
    (runWriter [((2:Nat),(1:Nat))]).bitPosition = 1 ∧
    (runWriter [((2:Nat),(1:Nat))]).finish = some ⟨1, 2, [2]⟩ ∧
    ¬ ((2:Nat) / 2 ^ 1 % 2 = (lowBits (runWriter [((2:Nat),(1:Nat))]).accumulator
        (runWriter [((2:Nat),(1:Nat))]).bitPosition).getD 1 0) := by
  decide

/-- C7 (amended): after any `write_bits` calls with widths in [0,16] and
values fitting their widths, at most 7 bits are pending, so the panic branch
of `finish` is unreachable; `finish` appends exactly one byte iff the pending
bit count is nonzero, and that byte is the accumulator, whose value is below
`2 ^ pending`, i.e. the pending bits sit in its low positions with the high
bits zero. -/
theorem claim_C7 (calls : List (Nat × Nat))
    (h : ∀ c ∈ calls, c.2 ≤ 16 ∧ c.1 < 2 ^ c.2) :
    (runWriter calls).bitPosition ≤ 7 ∧
    (∀ w', (runWriter calls).finish = some w' →
      ((runWriter calls).bitPosition = 0 → w'.buffer = (runWriter calls).buffer) ∧
      ((runWriter calls).bitPosition ≠ 0 →
        w'.buffer = (runWriter calls).buffer ++ [(runWriter calls).accumulator] ∧
        (runWriter calls).accumulator < 2 ^ (runWriter calls).bitPosition)) ∧
    ((runWriter calls).finish).isSome := by
  obtain ⟨⟨hbp, hacc⟩, _⟩ := runWriter_stream calls h
  refine ⟨hbp, ?_, ?_⟩
  · intro w' hw'
    rw [BitWriter.finish, if_neg (by omega)] at hw'
    constructor
    · intro h0
      rw [if_neg (by omega)] at hw'
      cases hw'
      rfl
    · intro h0
      rw [if_pos h0] at hw'
      cases hw'
      constructor
      · show _ ++ [_ % 256] = _ ++ [_]
        have : (runWriter calls).accumulator % 256 = (runWriter calls).accumulator := by
          apply Nat.mod_eq_of_lt
          calc (runWriter calls).accumulator < 2 ^ (runWriter calls).bitPosition := hacc
            _ ≤ 2 ^ 7 := Nat.pow_le_pow_right (by omega) hbp
            _ < 256 := by norm_num
        rw [this]
      · exact hacc
  · rw [BitWriter.finish, if_neg (by omega)]
    by_cases h0 : (runWriter calls).bitPosition ≠ 0
    · rw [if_pos h0]; rfl
    · rw [if_neg h0]; rfl

/-- Witness for C7 at the calls `(3,2)`. -/
theorem claim_C7_witness :
    (∀ c ∈ [((3:Nat),(2:Nat))], c.2 ≤ 16 ∧ c.1 < 2 ^ c.2) ∧
    (runWriter [((3:Nat),(2:Nat))]).bitPosition ≤ 7 :=
  ⟨by decide, (claim_C7 [((3:Nat),(2:Nat))] (by decide)).1⟩

/-! ### Claim C8: block headers (src/lib.rs, lines 22-25 and 135-151) -/

/-- `const FIXED_FIRST_BYTE: u16 = 0b0000_0010`. -/
def FIXED_FIRST_BYTE : Nat := 2
/-- `const FIXED_FIRST_BYTE_FINAL: u16 = 0b0000_0011`. -/
def FIXED_FIRST_BYTE_FINAL : Nat := 3
/-- `const DYNAMIC_FIRST_BYTE: u16 = 0b0000_0100`. -/
def DYNAMIC_FIRST_BYTE : Nat := 4
/-- `const DYNAMIC_FIRST_BYTE_FINAL: u16 = 0b000_00101`. -/
def DYNAMIC_FIRST_BYTE_FINAL : Nat := 5

/-- `EncoderState::write_start_of_block(final_block)`; `fixed` is the
encoder's `fixed` field. -/
def write_start_of_block (fixed finalBlock : Bool) (w : BitWriter) : BitWriter :=
  if finalBlock then
    if fixed then w.write_bits FIXED_FIRST_BYTE_FINAL 3
    else w.write_bits DYNAMIC_FIRST_BYTE_FINAL 3
  else
    if fixed then w.write_bits FIXED_FIRST_BYTE 3
    else w.write_bits DYNAMIC_FIRST_BYTE 3

/-- C8: every block header written by `write_start_of_block` is exactly 3
bits appended to the stream; the first (lowest) bit is the final-block flag
and the next two encode the block type LSB-first, `[1,0]` (`01`) for fixed
Huffman and `[0,1]` (`10`) for dynamic Huffman. -/
theorem claim_C8 (fixed finalBlock : Bool) (w : BitWriter) (hw : WriterInv w) :
    streamBits (write_start_of_block fixed finalBlock w) =
      streamBits w ++
        [if finalBlock then 1 else 0, if fixed then 1 else 0, if fixed then 0 else 1] := by
  cases fixed <;> cases finalBlock
  · show streamBits (w.write_bits DYNAMIC_FIRST_BYTE 3) = _
    rw [(write_bits_stream w DYNAMIC_FIRST_BYTE 3 hw (by omega) (by norm_num [DYNAMIC_FIRST_BYTE])).2]
    rfl
  · show streamBits (w.write_bits DYNAMIC_FIRST_BYTE_FINAL 3) = _
    rw [(write_bits_stream w DYNAMIC_FIRST_BYTE_FINAL 3 hw (by omega)
      (by norm_num [DYNAMIC_FIRST_BYTE_FINAL])).2]
    rfl
  · show streamBits (w.write_bits FIXED_FIRST_BYTE 3) = _
    rw [(write_bits_stream w FIXED_FIRST_BYTE 3 hw (by omega) (by norm_num [FIXED_FIRST_BYTE])).2]
    rfl
  · show streamBits (w.write_bits FIXED_FIRST_BYTE_FINAL 3) = _
    rw [(write_bits_stream w FIXED_FIRST_BYTE_FINAL 3 hw (by omega)
      (by norm_num [FIXED_FIRST_BYTE_FINAL])).2]
    rfl

/-- Witness for C8: the final fixed-Huffman header from a fresh writer is the
bits `1, 1, 0`. -/
theorem claim_C8_witness :
    WriterInv BitWriter.new ∧
    streamBits (write_start_of_block true true BitWriter.new) =
      streamBits BitWriter.new ++ [1, 1, 0] :=
  ⟨⟨by decide, by decide⟩, claim_C8 true true BitWriter.new ⟨by decide, by decide⟩⟩

/-! ### src/matching.rs -/

/-- `huffman_table::MAX_MATCH` (that module is not under src/; RFC 1951 and
the spec fix the maximum match length at 258). -/
def MAX_MATCH : Nat := 258

/-- `huffman_table::MIN_MATCH` (RFC 1951 minimum match length, 3). -/
def MIN_MATCH : Nat := 3

/-- `chained_hash_table::WINDOW_SIZE` (the 32 KiB DEFLATE sliding window). -/
def WINDOW_SIZE : Nat := 32768

/-- `get_match_length(data, current_pos, pos_to_check)` (src/matching.rs,
lines 12-49): `data[current_pos..].iter().zip(data[pos_to_check..].iter())
.take(MAX_MATCH).take_while(|&(&a, &b)| a == b).count()`. -/
def get_match_length (data : List Nat) (currentPos posToCheck : Nat) : Nat :=
  ((((data.drop currentPos).zip (data.drop posToCheck)).take MAX_MATCH).takeWhile
    (fun p => p.1 == p.2)).length

/-- The generic zip/take/take_while/count pipeline of `get_match_length`. -/
def matchRun (xs ys : List Nat) (k : Nat) : Nat :=
  (((xs.zip ys).take k).takeWhile (fun p => p.1 == p.2)).length

theorem get_match_length_eq (data : List Nat) (c p : Nat) :
    get_match_length data c p = matchRun (data.drop c) (data.drop p) MAX_MATCH := rfl

theorem matchRun_nil_left (ys : List Nat) (k : Nat) : matchRun [] ys k = 0 := by
  simp [matchRun]

theorem matchRun_nil_right (xs : List Nat) (k : Nat) : matchRun xs [] k = 0 := by
  simp [matchRun]

theorem matchRun_zero (xs ys : List Nat) : matchRun xs ys 0 = 0 := by
  simp [matchRun]

theorem matchRun_cons (x y : Nat) (xs ys : List Nat) (k : Nat) :
    matchRun (x :: xs) (y :: ys) (k + 1) =
      if x = y then matchRun xs ys k + 1 else 0 := by
  by_cases h : x = y
  · simp [matchRun, List.takeWhile_cons, h]
  · simp [matchRun, List.takeWhile_cons, h]

/-- `matchRun xs ys k` is the greatest `m ≤ k` (also bounded by both list
lengths) whose prefixes of length `m` agree. -/
theorem matchRun_spec (xs : List Nat) : ∀ ys k,
    matchRun xs ys k ≤ k ∧ matchRun xs ys k ≤ xs.length ∧
    matchRun xs ys k ≤ ys.length ∧
    xs.take (matchRun xs ys k) = ys.take (matchRun xs ys k) ∧
    ∀ m, m ≤ k → m ≤ xs.length → m ≤ ys.length → xs.take m = ys.take m →
      m ≤ matchRun xs ys k := by
  induction xs with
  | nil =>
    intro ys k
    rw [matchRun_nil_left]
    exact ⟨by omega, by omega, by omega, rfl, fun m _ hm _ _ => by simpa using hm⟩
  | cons x xs ih =>
    intro ys k
    cases ys with
    | nil =>
      rw [matchRun_nil_right]
      exact ⟨by omega, by omega, by omega, rfl, fun m _ _ hm _ => by simpa using hm⟩
    | cons y ys =>
      cases k with
      | zero =>
        rw [matchRun_zero]
        exact ⟨by omega, by omega, by omega, rfl, fun m hm _ _ _ => by omega⟩
      | succ k =>
        rw [matchRun_cons]
        by_cases h : x = y
        · subst h
          rw [if_pos rfl]
          obtain ⟨h1, h2, h3, h4, h5⟩ := ih ys k
          refine ⟨by omega, by simpa using h2, by simpa using h3, ?_, ?_⟩
          · simp only [List.take_succ_cons, h4]
          · intro m hm hmx hmy htake
            cases m with
            | zero => omega
            | succ m =>
              simp only [List.take_succ_cons, List.cons.injEq] at htake
              have := h5 m (by omega) (by simpa using hmx) (by simpa using hmy) htake.2
              omega
        · rw [if_neg h]
          refine ⟨by omega, by omega, by omega, rfl, ?_⟩
          intro m hm _ _ htake
          cases m with
          | zero => omega
          | succ m =>
            simp only [List.take_succ_cons, List.cons.injEq] at htake
            exact absurd htake.1 h

/-- C2: for `candidate < position ≤ data.len()`, `get_match_length` returns
the greatest `L ∈ [0, 258]` such that the `L`-byte slices starting at
`position` and at `candidate` coincide, clamped by `data.len() − position`. -/
theorem claim_C2 (data : List Nat) (position candidate : Nat)
    (h1 : candidate < position) (h2 : position ≤ data.length) :
    get_match_length data position candidate ≤ min 258 (data.length - position) ∧
    (data.drop position).take (get_match_length data position candidate) =
      (data.drop candidate).take (get_match_length data position candidate) ∧
    ∀ L, L ≤ 258 →
      (data.drop position).take L = (data.drop candidate).take L →
      L ≤ get_match_length data position candidate := by
  have hx : (data.drop position).length = data.length - position := by simp
  have hy : (data.drop candidate).length = data.length - candidate := by simp
  obtain ⟨hk, hxl, hyl, heq, hmax⟩ := matchRun_spec (data.drop position) (data.drop candidate) MAX_MATCH
  rw [get_match_length_eq]
  refine ⟨?_, heq, ?_⟩
  · have : matchRun (data.drop position) (data.drop candidate) MAX_MATCH ≤ 258 := hk
    rw [hx] at hxl
    omega
  · intro L hL htake
    rcases le_or_lt L (data.drop position).length with hcase | hcase
    · exact hmax L hL hcase (by rw [hx] at hcase; rw [hy]; omega) htake
    · exfalso
      have hlen := congrArg List.length htake
      simp only [List.length_take] at hlen
      rw [hx, hy] at hlen
      rw [hx] at hcase
      omega

/-- Witness for C2 on the data `[5,5,5,9]` with `position = 2`,
`candidate = 0`. -/
theorem claim_C2_witness :
    ((0:Nat) < 2 ∧ 2 ≤ ([5,5,5,9] : List Nat).length) ∧
    get_match_length [5,5,5,9] 2 0 ≤ min 258 (([5,5,5,9] : List Nat).length - 2) :=
  ⟨by decide, (claim_C2 [5,5,5,9] 2 0 (by decide) (by decide)).1⟩

/-! ### `longest_match` (src/matching.rs, lines 63-143)

The `ChainedHashTable` module is not under src/; `longest_match` only calls
its `get_prev` method, so the table is abstracted to an arbitrary function
`getPrev : Nat → Nat` (every concrete table refines it).  Rust slice
indexing `data[a..b]` panics when `a > b` or `b > data.len()`; `sliceRange`
models this with `Option`, and `none` anywhere means the Rust code panics. -/

/-- `&data[a..b]` with panicking bounds checks. -/
def sliceRange (data : List Nat) (a b : Nat) : Option (List Nat) :=
  if a ≤ b ∧ b ≤ data.length then some ((data.drop a).take (b - a)) else none

/-- The `for _ in 0..max_hash_checks` loop of `longest_match`; `fuel` is the
number of remaining iterations, and the other loop state is
`(currentHead, bestLength, bestDistance)`.  Returns the loop-exit values of
`(best_length, best_distance)`, or `none` for a panic. -/
def longest_match_loop (data : List Nat) (getPrev : Nat → Nat)
    (position limit maxLength : Nat) :
    Nat → Nat → Nat → Nat → Option (Nat × Nat)
  | 0, _, bestLength, bestDistance => some (bestLength, bestDistance)
  | fuel + 1, currentHead, bestLength, bestDistance =>
    let ch := getPrev currentHead
    if ch ≥ currentHead ∨ ch < limit then some (bestLength, bestDistance)
    else
      match sliceRange data (position + bestLength - 1) (position + bestLength + 1) with
      | none => none
      | some s1 =>
        match sliceRange data (ch + bestLength - 1) (ch + bestLength + 1) with
        | none => none
        | some s2 =>
          if s1 = s2 then
            let len := get_match_length data position ch
            if len > bestLength ∧ len ≥ MIN_MATCH then
              if len = maxLength then some (len, position - ch)
              else longest_match_loop data getPrev position limit maxLength
                fuel ch len (position - ch)
            else longest_match_loop data getPrev position limit maxLength
              fuel ch bestLength bestDistance
          else longest_match_loop data getPrev position limit maxLength
            fuel ch bestLength bestDistance

/-- `longest_match(data, hash_table, position, prev_length, max_hash_checks)`
(src/matching.rs, lines 63-143). -/
def longest_match (data : List Nat) (getPrev : Nat → Nat)
    (position prevLength maxHashChecks : Nat) : Option (Nat × Nat) :=
  if position = 0 ∨ prevLength ≥ MAX_MATCH ∨ position + prevLength ≥ data.length then
    some (0, 0)
  else
    let limit := if position > WINDOW_SIZE then position - WINDOW_SIZE else 0
    let prevLength' := if prevLength < 1 then 1 else prevLength
    let maxLength := min (data.length - position) MAX_MATCH
    match longest_match_loop data getPrev position limit maxLength
        maxHashChecks position prevLength' 0 with
    | none => none
    | some (bl, bd) => some (if bl > prevLength' then bl else 0, bd)

/-- Invariant carried by `(best_length, best_distance)` through the chain
walk: either untouched (`best_length` equals the clamped `prev_length`,
`best_distance = 0`), or a genuine in-window back-reference strictly better
than the clamped `prev_length`. -/
def GoodState (data : List Nat) (position maxLength pl bl bd : Nat) : Prop :=
  (bl = pl ∧ bd = 0) ∨
  (MIN_MATCH ≤ bl ∧ pl < bl ∧ bl ≤ maxLength ∧ 1 ≤ bd ∧ bd ≤ position ∧
    bd ≤ WINDOW_SIZE ∧
    (data.drop position).take bl = (data.drop (position - bd)).take bl)

theorem longest_match_loop_inv (data : List Nat) (getPrev : Nat → Nat)
    (position limit maxLength pl : Nat)
    (hml : maxLength = min (data.length - position) MAX_MATCH)
    (hLim : position - limit ≤ WINDOW_SIZE) :
    ∀ fuel ch bl bd l d,
      ch ≤ position →
      GoodState data position maxLength pl bl bd →
      longest_match_loop data getPrev position limit maxLength fuel ch bl bd =
        some (l, d) →
      GoodState data position maxLength pl l d := by
  intro fuel
  induction fuel with
  | zero =>
    intro ch bl bd l d _ hgood hrun
    rw [longest_match_loop] at hrun
    cases hrun
    exact hgood
  | succ fuel ih =>
    intro ch bl bd l d hch hgood hrun
    rw [longest_match_loop] at hrun
    by_cases hbreak : getPrev ch ≥ ch ∨ getPrev ch < limit
    · rw [if_pos hbreak] at hrun
      cases hrun
      exact hgood
    · rw [if_neg hbreak] at hrun
      have hch' : getPrev ch < position := by
        rcases not_or.mp hbreak with ⟨hlt, _⟩
        omega
      have hlim' : limit ≤ getPrev ch := by
        rcases not_or.mp hbreak with ⟨_, hge⟩
        omega
      cases hs1 : sliceRange data (position + bl - 1) (position + bl + 1) with
      | none => rw [hs1] at hrun; cases hrun
      | some s1 =>
        rw [hs1] at hrun
        cases hs2 : sliceRange data (getPrev ch + bl - 1) (getPrev ch + bl + 1) with
        | none => rw [hs2] at hrun; cases hrun
        | some s2 =>
          rw [hs2] at hrun
          dsimp only at hrun
          by_cases heq : s1 = s2
          · rw [if_pos heq] at hrun
            by_cases hupd : get_match_length data position (getPrev ch) > bl ∧
                get_match_length data position (getPrev ch) ≥ MIN_MATCH
            · rw [if_pos hupd] at hrun
              have hgoodNew : GoodState data position maxLength pl
                  (get_match_length data position (getPrev ch))
                  (position - getPrev ch) := by
                obtain ⟨hk, hxl, _, hprefEq, _⟩ :=
                  matchRun_spec (data.drop position) (data.drop (getPrev ch)) MAX_MATCH
                rw [← get_match_length_eq] at hk hxl hprefEq
                right
                have hblpl : pl ≤ bl := by
                  rcases hgood with ⟨h', _⟩ | ⟨_, h', _⟩ <;> omega
                refine ⟨hupd.2, by omega, ?_, by omega, by omega, by omega, ?_⟩
                · rw [hml]
                  refine le_min ?_ hk
                  rw [List.length_drop] at hxl
                  exact hxl
                · rw [Nat.sub_sub_self (le_of_lt hch')]
                  exact hprefEq
              by_cases hmax : get_match_length data position (getPrev ch) = maxLength
              · rw [if_pos hmax] at hrun
                cases hrun
                exact hgoodNew
              · rw [if_neg hmax] at hrun
                exact ih (getPrev ch) _ _ l d (by omega) hgoodNew hrun
            · rw [if_neg hupd] at hrun
              exact ih (getPrev ch) bl bd l d (by omega) hgood hrun
          · rw [if_neg heq] at hrun
            exact ih (getPrev ch) bl bd l d (by omega) hgood hrun

/-! ### Claims C3, C4, C5 -/

/-- C3: if `position == 0`, or `prev_length ≥ 258`, or
`position + prev_length ≥ data.len()`, `longest_match` returns `(0, 0)`. -/
theorem claim_C3 (data : List Nat) (getPrev : Nat → Nat)
    (position prevLength maxHashChecks : Nat)
    (h : position = 0 ∨ prevLength ≥ 258 ∨ position + prevLength ≥ data.length) :
    longest_match data getPrev position prevLength maxHashChecks = some (0, 0) := by
  rw [longest_match,
    if_pos (show position = 0 ∨ prevLength ≥ MAX_MATCH ∨
      position + prevLength ≥ data.length from h)]

/-- Witness for C3 at `position = 0`. -/
theorem claim_C3_witness :
    ((0:Nat) = 0 ∨ (0:Nat) ≥ 258 ∨ (0:Nat) + 0 ≥ ([] : List Nat).length) ∧
    longest_match [] (fun _ => 0) 0 0 0 = some (0, 0) :=
  ⟨Or.inl rfl, claim_C3 [] (fun _ => 0) 0 0 0 (Or.inl rfl)⟩

/-- Unpacks a successful `longest_match` run into the loop invariant: the
final `(best_length, best_distance)` pair satisfies `GoodState` for the
clamped `prev_length`, and the returned pair is the final-comparison image
of it. -/
theorem longest_match_some (data : List Nat) (getPrev : Nat → Nat)
    (position prevLength maxHashChecks l d : Nat)
    (hguard : ¬(position = 0 ∨ prevLength ≥ MAX_MATCH ∨
      position + prevLength ≥ data.length))
    (h : longest_match data getPrev position prevLength maxHashChecks = some (l, d)) :
    ∃ bl bd,
      GoodState data position (min (data.length - position) MAX_MATCH)
        (if prevLength < 1 then 1 else prevLength) bl bd ∧
      l = (if bl > (if prevLength < 1 then 1 else prevLength) then bl else 0) ∧
      d = bd := by
  rw [longest_match, if_neg hguard] at h
  simp only at h
  cases hloop : longest_match_loop data getPrev position
      (if position > WINDOW_SIZE then position - WINDOW_SIZE else 0)
      (min (data.length - position) MAX_MATCH) maxHashChecks position
      (if prevLength < 1 then 1 else prevLength) 0 with
  | none => rw [hloop] at h; cases h
  | some p =>
    rw [hloop] at h
    obtain ⟨bl, bd⟩ := p
    have hgood := longest_match_loop_inv data getPrev position
      (if position > WINDOW_SIZE then position - WINDOW_SIZE else 0)
      (min (data.length - position) MAX_MATCH)
      (if prevLength < 1 then 1 else prevLength) rfl
      (by split <;> omega)
      maxHashChecks position (if prevLength < 1 then 1 else prevLength) 0 bl bd
      (le_refl position) (Or.inl ⟨rfl, rfl⟩) hloop
    dsimp only at h
    injection h with hpair
    exact ⟨bl, bd, hgood, (congrArg Prod.fst hpair).symm, (congrArg Prod.snd hpair).symm⟩

/-- C4: a successful `longest_match` result is either exactly `(0, 0)` (the
no-match case; the distance is 0 too) or a length that is at least 3 (never
the legacy sentinel 2) and strictly exceeds the given `prev_length`. -/
theorem claim_C4 (data : List Nat) (getPrev : Nat → Nat)
    (position prevLength maxHashChecks l d : Nat)
    (h : longest_match data getPrev position prevLength maxHashChecks = some (l, d)) :
    (l = 0 ∧ d = 0) ∨ (3 ≤ l ∧ prevLength < l ∧ l ≠ 2) := by
  by_cases hguard : position = 0 ∨ prevLength ≥ MAX_MATCH ∨
      position + prevLength ≥ data.length
  · rw [longest_match, if_pos hguard] at h
    cases h
    exact Or.inl ⟨rfl, rfl⟩
  · obtain ⟨bl, bd, hgood, hl, hd⟩ :=
      longest_match_some data getPrev position prevLength maxHashChecks l d hguard h
    by_cases hcmp : bl > (if prevLength < 1 then 1 else prevLength)
    · rw [if_pos hcmp] at hl
      subst hl
      subst hd
      rcases hgood with ⟨hbl, _⟩ | ⟨h3, _, _, _, _, _, _⟩
      · omega
      · right
        have : MIN_MATCH = 3 := rfl
        constructor
        · omega
        · constructor
          · split at hcmp <;> omega
          · omega
    · rw [if_neg hcmp] at hl
      subst hl
      subst hd
      rcases hgood with ⟨_, hbd⟩ | ⟨_, hpl, _⟩
      · exact Or.inl ⟨rfl, hbd⟩
      · omega

/-- Witness for C4: on `[7,7,7,7,7,7]` with the chain `1 ↦ 0`,
`longest_match` at position 1 with `prev_length = 0` finds `(5, 1)`. -/
theorem claim_C4_witness :
    longest_match [7,7,7,7,7,7] (fun n => n - 1) 1 0 1 = some (5, 1) ∧
    (((5:Nat) = 0 ∧ (1:Nat) = 0) ∨ (3 ≤ 5 ∧ (0:Nat) < 5 ∧ (5:Nat) ≠ 2)) :=
  ⟨by decide, claim_C4 [7,7,7,7,7,7] (fun n => n - 1) 1 0 1 5 1 (by decide)⟩

/-- C5: a successful `longest_match` result with positive length is a genuine
in-window back-reference: `3 ≤ L ≤ 258`, `1 ≤ D ≤ 32768`, `D ≤ position`,
`position + L ≤ data.len()`, and the `L` bytes at `position` equal the `L`
bytes at `position − D`. -/
theorem claim_C5 (data : List Nat) (getPrev : Nat → Nat)
    (position prevLength maxHashChecks L D : Nat)
    (h : longest_match data getPrev position prevLength maxHashChecks = some (L, D))
    (hL : 0 < L) :
    3 ≤ L ∧ L ≤ 258 ∧ 1 ≤ D ∧ D ≤ 32768 ∧ D ≤ position ∧
    position + L ≤ data.length ∧
    (data.drop position).take L = (data.drop (position - D)).take L := by
  by_cases hguard : position = 0 ∨ prevLength ≥ MAX_MATCH ∨
      position + prevLength ≥ data.length
  · rw [longest_match, if_pos hguard] at h
    cases h
    omega
  · obtain ⟨bl, bd, hgood, hl, hd⟩ :=
      longest_match_some data getPrev position prevLength maxHashChecks L D hguard h
    by_cases hcmp : bl > (if prevLength < 1 then 1 else prevLength)
    · rw [if_pos hcmp] at hl
      rcases hgood with ⟨hbl, _⟩ | ⟨h3, hpl, hml, hd1, hdp, hdw, hpref⟩
      · omega
      · have hmm : MIN_MATCH = 3 := rfl
        have hws : WINDOW_SIZE = 32768 := rfl
        have hmle : bl ≤ min (data.length - position) MAX_MATCH := hml
        have h258 : bl ≤ MAX_MATCH := le_trans hmle (min_le_right _ _)
        have hlen : bl ≤ data.length - position := le_trans hmle (min_le_left _ _)
        have hposlen : position < data.length := by
          rcases not_or.mp hguard with ⟨_, hrest⟩
          rcases not_or.mp hrest with ⟨_, hlt⟩
          omega
        have hmm258 : MAX_MATCH = 258 := rfl
        refine ⟨by omega, by omega, by omega, by omega, by omega, by omega, ?_⟩
        rw [hl, hd]
        exact hpref
    · rw [if_neg hcmp] at hl
      omega

/-- Witness for C5, same scenario as the C4 witness. -/
theorem claim_C5_witness :
    longest_match [7,7,7,7,7,7] (fun n => n - 1) 1 0 1 = some (5, 1) ∧ (0:Nat) < 5 ∧
    (3 ≤ 5 ∧ (5:Nat) ≤ 258 ∧ (1:Nat) ≤ 1 ∧ (1:Nat) ≤ 32768 ∧ (1:Nat) ≤ 1 ∧
      1 + 5 ≤ ([7,7,7,7,7,7] : List Nat).length ∧
      (([7,7,7,7,7,7] : List Nat).drop 1).take 5 =
        (([7,7,7,7,7,7] : List Nat).drop (1 - 1)).take 5) :=
  ⟨by decide, by decide,
    claim_C5 [7,7,7,7,7,7] (fun n => n - 1) 1 0 1 5 1 (by decide) (by decide)⟩

/-! ### Claim C10: bounds safety of `longest_match` -/

/-- C10 as stated is false: with `data = [0,0]`, `position = 1`,
`prev_length = 0` (clamped internally to 1) and a chain whose
`get_prev(1) = 0`, the sentinel comparison slices `data[1..3]` in a
2-byte buffer and the Rust code panics; the model returns `none`. -/
theorem claim_C10_cex :
    longest_match [0, 0] (fun _ => 0) 1 0 1 = none := by decide

/-- Helper: the loop never hits an out-of-range slice while
`position + best_length + 1 ≤ data.len()` is maintained. -/
theorem longest_match_loop_isSome (data : List Nat) (getPrev : Nat → Nat)
    (position limit maxLength : Nat)
    (hpos : position ≤ data.length)
    (hml : maxLength = min (data.length - position) MAX_MATCH) :
    ∀ fuel ch bl bd, ch ≤ position → position + bl + 1 ≤ data.length →
      (longest_match_loop data getPrev position limit maxLength fuel ch bl bd).isSome := by
  intro fuel
  induction fuel with
  | zero =>
    intro ch bl bd _ _
    rw [longest_match_loop]
    rfl
  | succ fuel ih =>
    intro ch bl bd hch hbound
    rw [longest_match_loop]
    by_cases hbreak : getPrev ch ≥ ch ∨ getPrev ch < limit
    · rw [if_pos hbreak]
      rfl
    · rw [if_neg hbreak]
      have hch' : getPrev ch < position := by
        rcases not_or.mp hbreak with ⟨hlt, _⟩
        omega
      have hs1 : sliceRange data (position + bl - 1) (position + bl + 1) =
          some ((data.drop (position + bl - 1)).take (position + bl + 1 - (position + bl - 1))) := by
        rw [sliceRange, if_pos ⟨by omega, by omega⟩]
      have hs2 : sliceRange data (getPrev ch + bl - 1) (getPrev ch + bl + 1) =
          some ((data.drop (getPrev ch + bl - 1)).take
            (getPrev ch + bl + 1 - (getPrev ch + bl - 1))) := by
        rw [sliceRange, if_pos ⟨by omega, by omega⟩]
      rw [hs1, hs2]
      dsimp only
      by_cases heq : (data.drop (position + bl - 1)).take (position + bl + 1 - (position + bl - 1)) =
          (data.drop (getPrev ch + bl - 1)).take (getPrev ch + bl + 1 - (getPrev ch + bl - 1))
      · rw [if_pos heq]
        by_cases hupd : get_match_length data position (getPrev ch) > bl ∧
            get_match_length data position (getPrev ch) ≥ MIN_MATCH
        · rw [if_pos hupd]
          by_cases hmax : get_match_length data position (getPrev ch) = maxLength
          · rw [if_pos hmax]
            rfl
          · rw [if_neg hmax]
            apply ih (getPrev ch) _ _ (by omega)
            obtain ⟨hk, hxl, _, _, _⟩ :=
              matchRun_spec (data.drop position) (data.drop (getPrev ch)) MAX_MATCH
            rw [← get_match_length_eq] at hk hxl
            rw [List.length_drop] at hxl
            have : get_match_length data position (getPrev ch) < maxLength := by
              have : get_match_length data position (getPrev ch) ≤ maxLength := by
                rw [hml]
                exact le_min hxl hk
              omega
            omega
        · rw [if_neg hupd]
          exact ih (getPrev ch) bl bd (by omega) hbound
      · rw [if_neg heq]
        exact ih (getPrev ch) bl bd (by omega) hbound

/-- `longest_match` performs no out-of-bounds read whenever `prev_length ≥ 1`
or `position + 1 ≠ data.len()`. -/
theorem longest_match_no_panic (data : List Nat) (getPrev : Nat → Nat)
    (position prevLength maxHashChecks : Nat)
    (h : 1 ≤ prevLength ∨ position + 1 ≠ data.length) :
    (longest_match data getPrev position prevLength maxHashChecks).isSome := by
  by_cases hguard : position = 0 ∨ prevLength ≥ MAX_MATCH ∨
      position + prevLength ≥ data.length
  · rw [longest_match, if_pos hguard]
    rfl
  · rw [longest_match, if_neg hguard]
    simp only
    have hposlen : position + prevLength < data.length := by
      rcases not_or.mp hguard with ⟨_, hrest⟩
      rcases not_or.mp hrest with ⟨_, hlt⟩
      omega
    have hbound : position + (if prevLength < 1 then 1 else prevLength) + 1 ≤
        data.length := by
      by_cases h1 : prevLength < 1
      · rw [if_pos h1]
        omega
      · rw [if_neg h1]
        omega
    have hloop := longest_match_loop_isSome data getPrev position
      (if position > WINDOW_SIZE then position - WINDOW_SIZE else 0)
      (min (data.length - position) MAX_MATCH) (by omega) rfl
      maxHashChecks position (if prevLength < 1 then 1 else prevLength) 0
      (le_refl position) hbound
    cases hloopEq : longest_match_loop data getPrev position
        (if position > WINDOW_SIZE then position - WINDOW_SIZE else 0)
        (min (data.length - position) MAX_MATCH) maxHashChecks position
        (if prevLength < 1 then 1 else prevLength) 0 with
    | none => rw [hloopEq] at hloop; cases hloop
    | some p =>
      obtain ⟨bl, bd⟩ := p
      rfl

/-- C10 (amended): `longest_match` performs no out-of-bounds read whenever
`prev_length ≥ 1` or `position + 1 ≠ data.len()`; in the one remaining
configuration (`prev_length = 0` at `position = data.len() − 1` with a
usable chain candidate) the sentinel slice ends at `data.len() + 1` and the
Rust code panics. -/
theorem claim_C10 (data : List Nat) (getPrev : Nat → Nat)
    (position prevLength maxHashChecks : Nat)
    (h : 1 ≤ prevLength ∨ position + 1 ≠ data.length) :
    (longest_match data getPrev position prevLength maxHashChecks).isSome :=
  longest_match_no_panic data getPrev position prevLength maxHashChecks h

/-- Witness for C10 (amended) with `prev_length = 1`. -/
theorem claim_C10_witness :
    ((1:Nat) ≤ 1 ∨ (1:Nat) + 1 ≠ ([1,2,3] : List Nat).length) ∧
    (longest_match [1,2,3] (fun _ => 0) 1 1 1).isSome :=
  ⟨Or.inl (le_refl 1), claim_C10 [1,2,3] (fun _ => 0) 1 1 1 (Or.inl (le_refl 1))⟩

/-! ### Spec-modelled modules

The crate modules `huffman_table`, `chained_hash_table`, `lz77` and
`stored_block` are not under src/ (src/lib.rs only declares and calls them),
so the definitions below are modelled from the spec (§4.2, §4.3, §4.5 and
RFC 1951, which the spec incorporates for the fixed tables). -/

/-- Modelled from the spec: `LDPair`, the symbol type produced by the LZ77
stage (spec §3: `Literal`, `Match{length, distance}`, `BlockStart`). -/
inductive LDPair where
  | literal (value : Nat)
  | lengthDistance (length distance : Nat)
  | blockStart (isFinal : Bool)
deriving DecidableEq

/-- Modelled from the spec (§4.2 Preset, RFC 1951 §3.2.6): the fixed
literal/length code lengths — literals 0..143: 8 bits; 144..255: 9;
256..279: 7; 280..287: 8. -/
def FIXED_CODE_LENGTHS : List Nat :=
  List.replicate 144 8 ++ List.replicate 112 9 ++ List.replicate 24 7 ++
    List.replicate 8 8

/-- Modelled from the spec (§4.2, RFC 1951 §3.2.6): fixed distance code
lengths, all 5 bits. -/
def FIXED_CODE_LENGTHS_DISTANCE : List Nat := List.replicate 30 5

/-- Modelled from the spec (§4.2, RFC 1951 §3.2.2): the canonical starting
code for each code length (`next_code` in the RFC algorithm, with
`bl_count[0]` forced to 0). -/
def nextCode (lengths : List Nat) : Nat → Nat
  | 0 => 0
  | l + 1 => (nextCode lengths l + (if l = 0 then 0 else lengths.count l)) * 2

/-- Modelled from the spec (§4.2, RFC 1951 §3.2.2): canonical code of symbol
`s` — for each length, codes are assigned in ascending symbol order from the
length's starting value, so symbol `s` gets `next_code[len s]` plus the
number of earlier symbols of the same length. -/
def canonicalCode (lengths : List Nat) (s : Nat) : Nat :=
  nextCode lengths (lengths.getD s 0) + (lengths.take s).count (lengths.getD s 0)

/-- Modelled from the spec (§4.2 bit-ordering nuance): a Huffman code is
emitted bit-reversed, so that the LSB-first writer produces it MSB-first. -/
def reverseBits (v : Nat) : Nat → Nat
  | 0 => 0
  | n + 1 => v % 2 * 2 ^ n + reverseBits (v / 2) n

/-- Code of symbol `s` as handed to the bit writer: bit-reversed canonical
code and its bit length (a `Code` in the spec's data model). -/
def symbolCode (lengths : List Nat) (s : Nat) : Nat × Nat :=
  (reverseBits (canonicalCode lengths s) (lengths.getD s 0), lengths.getD s 0)

/-- Modelled from the spec (§4.2, RFC 1951 Tables): `(base match length,
extra-bit width)` of each length code `257 + i`. -/
def LENGTH_TABLE : List (Nat × Nat) :=
  [(3, 0), (4, 0), (5, 0), (6, 0), (7, 0), (8, 0), (9, 0), (10, 0),
   (11, 1), (13, 1), (15, 1), (17, 1), (19, 2), (23, 2), (27, 2), (31, 2),
   (35, 3), (43, 3), (51, 3), (59, 3), (67, 4), (83, 4), (99, 4), (115, 4),
   (131, 5), (163, 5), (195, 5), (227, 5), (258, 0)]

/-- Modelled from the spec (§4.2, RFC 1951 Tables): `(base distance,
extra-bit width)` of each distance code. -/
def DISTANCE_TABLE : List (Nat × Nat) :=
  [(1, 0), (2, 0), (3, 0), (4, 0), (5, 1), (7, 1), (9, 2), (13, 2),
   (17, 3), (25, 3), (33, 4), (49, 4), (65, 5), (97, 5), (129, 6), (193, 6),
   (257, 7), (385, 7), (513, 8), (769, 8), (1025, 9), (1537, 9),
   (2049, 10), (3073, 10), (4097, 11), (6145, 11), (8193, 12), (12289, 12),
   (16385, 13), (24577, 13)]

/-- Index of the code covering value `v` in an ascending base table: the
greatest `i` whose base is `≤ v`. -/
def codeIndexFor (table : List (Nat × Nat)) (v : Nat) : Nat :=
  (table.takeWhile (fun b => decide (b.1 ≤ v))).length - 1

/-- `EncoderState::write_literal` (src/lib.rs, lines 106-109), with the
spec-modelled fixed Huffman table. -/
def write_literal (lengths : List Nat) (w : BitWriter) (value : Nat) : BitWriter :=
  w.write_bits (symbolCode lengths value).1 (symbolCode lengths value).2

/-- The `LDPair::LengthDistance` arm of `EncoderState::write_ldpair`
(src/lib.rs, lines 111-132): length base code, length extra bits, distance
base code, distance extra bits, in that order; the code lookups are
spec-modelled (`get_length_distance_code`). -/
def write_length_distance (litLengths distLengths : List Nat) (w : BitWriter)
    (length distance : Nat) : BitWriter :=
  let li := codeIndexFor LENGTH_TABLE length
  let w1 := w.write_bits (symbolCode litLengths (257 + li)).1
    (symbolCode litLengths (257 + li)).2
  let w2 := w1.write_bits (length - (LENGTH_TABLE.getD li (0, 0)).1)
    (LENGTH_TABLE.getD li (0, 0)).2
  let di := codeIndexFor DISTANCE_TABLE distance
  let w3 := w2.write_bits (symbolCode distLengths di).1 (symbolCode distLengths di).2
  w3.write_bits (distance - (DISTANCE_TABLE.getD di (0, 0)).1)
    (DISTANCE_TABLE.getD di (0, 0)).2

/-- `EncoderState::write_end_of_block` (src/lib.rs, lines 153-158): the
code of symbol 256. -/
def write_end_of_block (lengths : List Nat) (w : BitWriter) : BitWriter :=
  w.write_bits (symbolCode lengths 256).1 (symbolCode lengths 256).2

/-! #### Chained hash table and LZ77, modelled from the spec -/

/-- Modelled from the spec (§4.3): rolling hash step
`h := ((h << HASH_SHIFT) ^ next_byte) & HASH_MASK`, `HASH_SHIFT = 5`,
`HASH_MASK = HASH_SIZE − 1 = 32767`. -/
def updateHash (h b : Nat) : Nat := ((h <<< 5) ^^^ b) &&& 32767

/-- Modelled from the spec (§4.3): `ChainedHashTable` — rolling hash `h`,
`head` array mapping a hash to the most recent position with that 3-byte
prefix hash, `prev` array (indexed mod `WINDOW_SIZE`) chaining to the
previous position with the same hash. -/
structure ChainedHashTable where
  hash : Nat
  head : Nat → Nat
  prev : Nat → Nat

/-- Modelled from the spec (§4.3): `from_starting_values(b0, b1)` primes the
rolling hash with the two bootstrap bytes. -/
def ChainedHashTable.from_starting_values (b0 b1 : Nat) : ChainedHashTable :=
  ⟨updateHash (updateHash 0 b0) b1, fun _ => 0, fun _ => 0⟩

/-- Modelled from the spec (§4.3): `add_hash_value(position, next_byte)` —
roll the hash forward, set `head[h] ← position`,
`prev[position mod WINDOW_SIZE] ← previous head[h]`. -/
def ChainedHashTable.add_hash_value (t : ChainedHashTable) (position value : Nat) :
    ChainedHashTable :=
  let h := updateHash t.hash value
  ⟨h,
    fun i => if i = h then position else t.head i,
    fun i => if i = position % WINDOW_SIZE then t.head h else t.prev i⟩

/-- Modelled from the spec (§4.3): `get_prev(position)` reads the chain. -/
def ChainedHashTable.get_prev (t : ChainedHashTable) (position : Nat) : Nat :=
  t.prev (position % WINDOW_SIZE)

/-- Insert position `p` into the hash table when its 3-byte prefix is
complete (the spec's "update the hash for position p"). -/
def hashInsert (input : List Nat) (t : ChainedHashTable) (p : Nat) : ChainedHashTable :=
  if p + 2 < input.length then t.add_hash_value p (input.getD (p + 2) 0) else t

/-- Insert every position in `[from, to]` (the spec's "updating the hash
table for every skipped position"). -/
def hashInsertRange (input : List Nat) (t : ChainedHashTable) :
    Nat → Nat → ChainedHashTable
  | _, 0 => t
  | from_, n + 1 => hashInsertRange input (hashInsert input t from_) (from_ + 1) n

/-- Modelled from the spec (§6): the default `max_hash_checks`. -/
def MAX_HASH_CHECKS : Nat := 4096

/-- Modelled from the spec (§4.5): one step of the lazy-matching loop, with
`fuel` bounding the remaining iterations (each iteration advances the
position, so `input.len() + 1` fuel is enough).  State: the hash table, the
current position `p`, the match recorded at `p − 1` (if any, its first byte
still unemitted), and the emitted symbols, newest first reversed at the end.
`none` models a panic inside `longest_match`. -/
def lz77Loop (input : List Nat) :
    Nat → ChainedHashTable → Nat → Option (Nat × Nat) → List LDPair →
    Option (List LDPair)
  | 0, _, _, pending, acc =>
    some (match pending with
      | some (plen, pdist) => LDPair.lengthDistance plen pdist :: acc
      | none => acc)
  | fuel + 1, t, p, pending, acc =>
    if p < input.length then
      let t := hashInsert input t p
      match pending with
      | some (plen, pdist) =>
        match longest_match input t.get_prev p plen MAX_HASH_CHECKS with
        | none => none
        | some (l, d) =>
          if l > plen then
            lz77Loop input fuel t (p + 1) (some (l, d))
              (LDPair.literal (input.getD (p - 1) 0) :: acc)
          else
            lz77Loop input fuel
              (hashInsertRange input t (p + 1) (p - 1 + plen - (p + 1)))
              (p - 1 + plen) none
              (LDPair.lengthDistance plen pdist :: acc)
      | none =>
        match longest_match input t.get_prev p 2 MAX_HASH_CHECKS with
        | none => none
        | some (l, d) =>
          if l ≥ MIN_MATCH then
            lz77Loop input fuel t (p + 1) (some (l, d)) acc
          else
            lz77Loop input fuel t (p + 1) none (LDPair.literal (input.getD p 0) :: acc)
    else
      some (match pending with
        | some (plen, pdist) => LDPair.lengthDistance plen pdist :: acc
        | none => acc)

/-- Modelled from the spec (§4.5): `lz77_compress` — emit
`BlockStart{final: true}`, prime the hash table with the first two bytes,
then run the lazy-matching loop over every position. -/
def lz77_compress (input : List Nat) : Option (List LDPair) :=
  let t := if 2 ≤ input.length then
      ChainedHashTable.from_starting_values (input.getD 0 0) (input.getD 1 0)
    else ⟨0, fun _ => 0, fun _ => 0⟩
  match lz77Loop input (input.length + 1) t 0 none [] with
  | none => none
  | some acc => some (LDPair.blockStart true :: acc.reverse)

/-- `compress_data_fixed` (src/lib.rs, lines 170-199): write the final-block
fixed-Huffman header, encode every LZ77 symbol (skipping `BlockStart`),
write the end-of-block code and flush. -/
def compress_data_fixed (input : List Nat) : Option (List Nat) :=
  match lz77_compress input with
  | none => none
  | some compressed =>
    let w0 := write_start_of_block true true BitWriter.new
    let w1 := compressed.foldl (fun w ld =>
      match ld with
      | LDPair.blockStart _ => w
      | LDPair.literal v => write_literal FIXED_CODE_LENGTHS w v
      | LDPair.lengthDistance l d =>
          write_length_distance FIXED_CODE_LENGTHS FIXED_CODE_LENGTHS_DISTANCE w l d) w0
    let w2 := write_end_of_block FIXED_CODE_LENGTHS w1
    match w2.finish with
    | none => none
    | some wf => some wf.buffer

/-- C9: compressing the 12-byte input `"Deflate late"` with fixed Huffman
yields exactly the 11-byte stream `73 49 4D CB 49 2C 49 55 00 11 00`
(Mark Adler's example). -/
theorem claim_C9 :
    compress_data_fixed [68, 101, 102, 108, 97, 116, 101, 32, 108, 97, 116, 101] =
      some [0x73, 0x49, 0x4D, 0xCB, 0x49, 0x2C, 0x49, 0x55, 0x00, 0x11, 0x00] := by
  decide

/-! ### LZ77 decode semantics and correctness of `lz77_compress`

`decodeLZ` is the spec-side meaning of a symbol sequence (spec §3): a
literal appends its byte, a match copies `length` bytes starting `distance`
bytes before the end of the output (byte by byte, so overlapping copies
work as RFC 1951 requires). -/

/-- Append `l` bytes to `o`, each copied from `d` bytes before the current
end of `o` (RFC 1951 back-reference copy). -/
def lzCopy (o : List Nat) (d : Nat) : Nat → List Nat
  | 0 => o
  | l + 1 => lzCopy (o ++ [o.getD (o.length - d) 0]) d l

/-- The output a standard decoder produces from a symbol sequence. -/
def decodeLZ : List LDPair → List Nat → List Nat
  | [], o => o
  | LDPair.literal b :: rest, o => decodeLZ rest (o ++ [b])
  | LDPair.lengthDistance l d :: rest, o => decodeLZ rest (lzCopy o d l)
  | LDPair.blockStart _ :: rest, o => decodeLZ rest o

/-- Symbols the Huffman stage can encode: literals are bytes of the input,
match lengths lie in `[3, 258]` and distances in `[1, 32768]`. -/
def ValidSym (input : List Nat) : LDPair → Prop
  | LDPair.literal v => v ∈ input
  | LDPair.lengthDistance l d => 3 ≤ l ∧ l ≤ 258 ∧ 1 ≤ d ∧ d ≤ 32768
  | LDPair.blockStart _ => False

theorem decodeLZ_append (xs ys : List LDPair) (o : List Nat) :
    decodeLZ (xs ++ ys) o = decodeLZ ys (decodeLZ xs o) := by
  induction xs generalizing o with
  | nil => rfl
  | cons x xs ih => cases x <;> simp [decodeLZ, ih]

theorem getD_take_of_lt (l : List Nat) (m n : Nat) (h : m < n) :
    (l.take n).getD m 0 = l.getD m 0 := by
  simp only [List.getD_eq_getElem?_getD, List.getElem?_take_of_lt h]

theorem take_succ_getD (l : List Nat) (n : Nat) (h : n < l.length) :
    l.take (n + 1) = l.take n ++ [l.getD n 0] := by
  rw [List.take_succ]
  congr 1
  simp [List.getElem?_eq_getElem h, List.getD_eq_getElem?_getD]

theorem getD_mem (l : List Nat) (n : Nat) (h : n < l.length) : l.getD n 0 ∈ l := by
  have : l.getD n 0 = l[n] := by
    simp [List.getD_eq_getElem?_getD, List.getElem?_eq_getElem h]
  rw [this]
  exact List.getElem_mem h

theorem slice_eq_pointwise (data : List Nat) (a b L : Nat)
    (h : (data.drop a).take L = (data.drop b).take L) :
    ∀ i, i < L → data.getD (a + i) 0 = data.getD (b + i) 0 := by
  intro i hi
  have h2 := congrArg (fun l => l[i]?) h
  simp only [List.getElem?_take_of_lt hi, List.getElem?_drop] at h2
  simp only [List.getD_eq_getElem?_getD, h2]

/-- Pointwise form of the validity of a positive `longest_match` result. -/
theorem longest_match_result_valid (data : List Nat) (getPrev : Nat → Nat)
    (position prevLength maxHashChecks L D : Nat)
    (h : longest_match data getPrev position prevLength maxHashChecks = some (L, D))
    (hL : 0 < L) :
    3 ≤ L ∧ L ≤ 258 ∧ 1 ≤ D ∧ D ≤ 32768 ∧ D ≤ position ∧
    position + L ≤ data.length ∧
    ∀ i, i < L → data.getD (position + i) 0 = data.getD (position - D + i) 0 := by
  by_cases hguard : position = 0 ∨ prevLength ≥ MAX_MATCH ∨
      position + prevLength ≥ data.length
  · rw [longest_match, if_pos hguard] at h
    cases h
    omega
  · obtain ⟨bl, bd, hgood, hl, hd⟩ :=
      longest_match_some data getPrev position prevLength maxHashChecks L D hguard h
    by_cases hcmp : bl > (if prevLength < 1 then 1 else prevLength)
    · rw [if_pos hcmp] at hl
      rcases hgood with ⟨hbl, _⟩ | ⟨h3, hpl, hml, hd1, hdp, hdw, hpref⟩
      · omega
      · have hmm : MIN_MATCH = 3 := rfl
        have hws : WINDOW_SIZE = 32768 := rfl
        have hmle : bl ≤ min (data.length - position) MAX_MATCH := hml
        have h258 : bl ≤ MAX_MATCH := le_trans hmle (min_le_right _ _)
        have hlen : bl ≤ data.length - position := le_trans hmle (min_le_left _ _)
        have hposlen : position < data.length := by
          rcases not_or.mp hguard with ⟨_, hrest⟩
          rcases not_or.mp hrest with ⟨_, hlt⟩
          omega
        have hmm258 : MAX_MATCH = 258 := rfl
        refine ⟨by omega, by omega, by omega, by omega, by omega, by omega, ?_⟩
        intro i hi
        rw [hd]
        exact slice_eq_pointwise data position (position - bd) bl hpref i (by omega)
    · rw [if_neg hcmp] at hl
      omega

/-- Copying a genuine in-window match extends a prefix of the input by the
match length. -/
theorem lzCopy_spec (input : List Nat) : ∀ l q d,
    1 ≤ d → d ≤ q → q + l ≤ input.length →
    (∀ i, i < l → input.getD (q + i) 0 = input.getD (q - d + i) 0) →
    lzCopy (input.take q) d l = input.take (q + l) := by
  intro l
  induction l with
  | zero => intro q d _ _ _ _; rfl
  | succ l ih =>
    intro q d hd1 hdq hlen hmatch
    show lzCopy (input.take q ++ [(input.take q).getD ((input.take q).length - d) 0]) d l = _
    have hq : q ≤ input.length := by omega
    have hlenq : (input.take q).length = q := by
      rw [List.length_take]
      omega
    have hbyte : (input.take q).getD ((input.take q).length - d) 0 = input.getD q 0 := by
      rw [hlenq, getD_take_of_lt input (q - d) q (by omega)]
      have h0 := hmatch 0 (by omega)
      simp only [Nat.add_zero] at h0
      rw [h0]
    rw [hbyte, ← take_succ_getD input q (by omega)]
    rw [ih (q + 1) d hd1 (by omega) (by omega) ?_]
    · congr 1
      omega
    · intro i hi
      have := hmatch (i + 1) (by omega)
      have harith1 : q + (i + 1) = q + 1 + i := by omega
      have harith2 : q - d + (i + 1) = q + 1 - d + i := by omega
      rw [harith1, harith2] at this
      exact this

/-- Invariant on the pending match of the lazy loop: it is a genuine
back-reference starting at `p − 1`. -/
def PendingOk (input : List Nat) (p : Nat) : Option (Nat × Nat) → Prop
  | none => True
  | some (l, d) => 1 ≤ p ∧ 3 ≤ l ∧ l ≤ 258 ∧ 1 ≤ d ∧ d ≤ 32768 ∧ d ≤ p - 1 ∧
      p - 1 + l ≤ input.length ∧
      ∀ i, i < l → input.getD (p - 1 + i) 0 = input.getD (p - 1 - d + i) 0

/-- The lazy-matching loop terminates without panic and its output decodes
to the whole input; every emitted symbol is encodable. -/
theorem lz77Loop_correct (input : List Nat) : ∀ fuel t p pending acc,
    input.length + 1 ≤ fuel + p →
    p ≤ input.length →
    PendingOk input p pending →
    decodeLZ acc.reverse [] = input.take (p - (if pending.isSome then 1 else 0)) →
    (∀ ld ∈ acc, ValidSym input ld) →
    ∃ out, lz77Loop input fuel t p pending acc = some out ∧
      decodeLZ out.reverse [] = input ∧ ∀ ld ∈ out, ValidSym input ld := by
  intro fuel
  induction fuel with
  | zero =>
    intro t p pending acc hfuel hp _ _ _
    omega
  | succ fuel ih =>
    intro t p pending acc hfuel hp hpend hacc hvalid
    by_cases hplt : p < input.length
    · simp only [lz77Loop, if_pos hplt]
      cases pending with
      | some pr =>
        obtain ⟨plen, pdist⟩ := pr
        obtain ⟨hp1, hl3, hl258, hd1, hd32, hdq, hqlen, hmatch⟩ := hpend
        dsimp only
        have hsafe := longest_match_no_panic input
          (hashInsert input t p).get_prev p plen MAX_HASH_CHECKS (Or.inl (by omega))
        cases hlm : longest_match input (hashInsert input t p).get_prev p plen
            MAX_HASH_CHECKS with
        | none => rw [hlm] at hsafe; cases hsafe
        | some r =>
          obtain ⟨l, d⟩ := r
          dsimp only
          by_cases hgt : l > plen
          · rw [if_pos hgt]
            obtain ⟨nl3, nl258, nd1, nd32, ndp, nplen, nmatch⟩ :=
              longest_match_result_valid input (hashInsert input t p).get_prev p plen
                MAX_HASH_CHECKS l d hlm (by omega)
            apply ih (hashInsert input t p) (p + 1) (some (l, d))
              (LDPair.literal (input.getD (p - 1) 0) :: acc)
              (by omega) (by omega)
            · exact ⟨by omega, nl3, nl258, nd1, nd32, by omega, by omega,
                by intro i hi; have := nmatch i hi; simpa using this⟩
            · rw [List.reverse_cons, decodeLZ_append, hacc]
              show input.take (p - 1) ++ [input.getD (p - 1) 0] = input.take (p + 1 - 1)
              rw [← take_succ_getD input (p - 1) (by omega)]
              congr 1
              omega
            · intro ld hld
              rcases List.mem_cons.mp hld with heq | hmem
              · subst heq
                exact getD_mem input (p - 1) (by omega)
              · exact hvalid ld hmem
          · rw [if_neg hgt]
            apply ih (hashInsertRange input (hashInsert input t p) (p + 1)
                (p - 1 + plen - (p + 1))) (p - 1 + plen) none
              (LDPair.lengthDistance plen pdist :: acc)
              (by omega) (by omega) trivial
            · rw [List.reverse_cons, decodeLZ_append, hacc]
              show lzCopy (input.take (p - 1)) pdist plen = input.take (p - 1 + plen)
              rw [lzCopy_spec input plen (p - 1) pdist hd1 hdq (by omega) hmatch]
            · intro ld hld
              rcases List.mem_cons.mp hld with heq | hmem
              · subst heq
                exact ⟨hl3, hl258, hd1, hd32⟩
              · exact hvalid ld hmem
      | none =>
        dsimp only
        have hsafe := longest_match_no_panic input
          (hashInsert input t p).get_prev p 2 MAX_HASH_CHECKS (Or.inl (by omega))
        cases hlm : longest_match input (hashInsert input t p).get_prev p 2
            MAX_HASH_CHECKS with
        | none => rw [hlm] at hsafe; cases hsafe
        | some r =>
          obtain ⟨l, d⟩ := r
          dsimp only
          by_cases hge : l ≥ MIN_MATCH
          · rw [if_pos hge]
            have hmm : MIN_MATCH = 3 := rfl
            obtain ⟨nl3, nl258, nd1, nd32, ndp, nplen, nmatch⟩ :=
              longest_match_result_valid input (hashInsert input t p).get_prev p 2
                MAX_HASH_CHECKS l d hlm (by omega)
            apply ih (hashInsert input t p) (p + 1) (some (l, d)) acc
              (by omega) (by omega)
            · exact ⟨by omega, nl3, nl258, nd1, nd32, by omega, by omega,
                by intro i hi; have := nmatch i hi; simpa using this⟩
            · rw [hacc]
              simp
            · exact hvalid
          · rw [if_neg hge]
            apply ih (hashInsert input t p) (p + 1) none
              (LDPair.literal (input.getD p 0) :: acc) (by omega) (by omega) trivial
            · rw [List.reverse_cons, decodeLZ_append, hacc]
              show input.take p ++ [input.getD p 0] = input.take (p + 1)
              rw [← take_succ_getD input p hplt]
            · intro ld hld
              rcases List.mem_cons.mp hld with heq | hmem
              · subst heq
                exact getD_mem input p hplt
              · exact hvalid ld hmem
    · simp only [lz77Loop, if_neg hplt]
      cases pending with
      | none =>
        refine ⟨acc, rfl, ?_, hvalid⟩
        rw [hacc]
        have : p = input.length := by omega
        simp [this]
      | some pr =>
        obtain ⟨plen, pdist⟩ := pr
        obtain ⟨hp1, hl3, _, _, _, _, hqlen, _⟩ := hpend
        omega

/-- `lz77_compress` never panics, its symbols decode to the whole input and
every symbol is encodable. -/
theorem lz77_compress_correct (input : List Nat) :
    ∃ body, lz77_compress input = some (LDPair.blockStart true :: body) ∧
      decodeLZ body [] = input ∧ ∀ ld ∈ body, ValidSym input ld := by
  obtain ⟨out, hrun, hdec, hval⟩ := lz77Loop_correct input (input.length + 1)
    (if 2 ≤ input.length then
      ChainedHashTable.from_starting_values (input.getD 0 0) (input.getD 1 0)
    else ⟨0, fun _ => 0, fun _ => 0⟩) 0 none [] (by omega) (by omega) trivial
    (by simp [decodeLZ]) (by intro ld hld; cases hld)
  refine ⟨out.reverse, ?_, hdec, ?_⟩
  · rw [lz77_compress]
    rw [hrun]
  · intro ld hld
    exact hval ld (List.mem_reverse.mp hld)

/-! ### Bit-level reading primitives of the reference decoder

Modelled from the spec (§6 wire format, RFC 1951 §3.1.1): the decoder
consumes the LSB-first bit stream of the output bytes; fixed-width fields
are read LSB-first, Huffman codes bit by bit MSB-first. -/

/-- Read `n` bits as an LSB-first value. -/
def readBits : Nat → List Nat → Option (Nat × List Nat)
  | 0, bits => some (0, bits)
  | _ + 1, [] => none
  | n + 1, b :: rest =>
    match readBits n rest with
    | none => none
    | some (v, r) => some (b + 2 * v, r)

/-- Read `n` more bits MSB-first into the accumulator `acc`. -/
def readBitsMSB (acc : Nat) : Nat → List Nat → Option (Nat × List Nat)
  | 0, bits => some (acc, bits)
  | _ + 1, [] => none
  | n + 1, b :: rest => readBitsMSB (2 * acc + b) n rest

theorem readBits_lowBits (n : Nat) : ∀ v rest, v < 2 ^ n →
    readBits n (lowBits v n ++ rest) = some (v, rest) := by
  induction n with
  | zero =>
    intro v rest hv
    have : v = 0 := by omega
    subst this
    rfl
  | succ n ih =>
    intro v rest hv
    show readBits (n + 1) (v % 2 :: (lowBits (v / 2) n ++ rest)) = _
    have hv2 : v / 2 < 2 ^ n := by
      rw [Nat.div_lt_iff_lt_mul (by omega : 0 < 2)]
      calc v < 2 ^ (n + 1) := hv
        _ = 2 ^ n * 2 := by rw [pow_succ]
    rw [readBits, ih (v / 2) rest hv2]
    dsimp only
    have : v % 2 + 2 * (v / 2) = v := by omega
    rw [this]

theorem readBits_extend (n : Nat) : ∀ bits v r ext,
    readBits n bits = some (v, r) →
    readBits n (bits ++ ext) = some (v, r ++ ext) := by
  induction n with
  | zero =>
    intro bits v r ext h
    rw [readBits] at h
    cases h
    rfl
  | succ n ih =>
    intro bits v r ext h
    cases bits with
    | nil => cases h
    | cons b rest =>
      rw [List.cons_append]
      simp only [readBits] at h ⊢
      cases hr : readBits n rest with
      | none => rw [hr] at h; cases h
      | some p =>
        obtain ⟨v', r'⟩ := p
        rw [hr] at h
        dsimp only at h
        cases h
        rw [ih rest v' r ext hr]

theorem lowBits_zero_eq (n : Nat) : lowBits 0 n = List.replicate n 0 := by
  induction n with
  | zero => rfl
  | succ n ih => simp [lowBits, ih, List.replicate]

theorem reverseBits_lt (n : Nat) : ∀ v, reverseBits v n < 2 ^ n := by
  induction n with
  | zero => intro v; simp [reverseBits]
  | succ n ih =>
    intro v
    show v % 2 * 2 ^ n + reverseBits (v / 2) n < 2 ^ (n + 1)
    have h1 := ih (v / 2)
    have h2 : v % 2 ≤ 1 := by omega
    have h3 : v % 2 * 2 ^ n ≤ 2 ^ n := by
      calc v % 2 * 2 ^ n ≤ 1 * 2 ^ n := Nat.mul_le_mul_right _ h2
        _ = 2 ^ n := one_mul _
    calc v % 2 * 2 ^ n + reverseBits (v / 2) n < v % 2 * 2 ^ n + 2 ^ n := by omega
      _ ≤ 2 ^ n + 2 ^ n := by omega
      _ = 2 ^ (n + 1) := by rw [pow_succ]; ring

/-- The LSB-first bits of the bit-reversed code are the code's bits
MSB-first. -/
theorem lowBits_reverseBits (n : Nat) : ∀ v,
    lowBits (reverseBits v n) n = (lowBits v n).reverse := by
  induction n with
  | zero => intro v; rfl
  | succ n ih =>
    intro v
    show lowBits (v % 2 * 2 ^ n + reverseBits (v / 2) n) (n + 1) = _
    have hr := reverseBits_lt n (v / 2)
    have hsplit := lowBits_split n 1 (v % 2 * 2 ^ n + reverseBits (v / 2) n)
    rw [show n + 1 = n + 1 from rfl, hsplit]
    have hmod : (v % 2 * 2 ^ n + reverseBits (v / 2) n) % 2 ^ n = reverseBits (v / 2) n := by
      rw [mul_comm, Nat.mul_add_mod]
      exact Nat.mod_eq_of_lt hr
    have hdiv : (v % 2 * 2 ^ n + reverseBits (v / 2) n) / 2 ^ n = v % 2 := by
      rw [mul_comm, Nat.mul_add_div (Nat.two_pow_pos n), Nat.div_eq_of_lt hr]
      omega
    rw [hmod, hdiv, ih (v / 2)]
    show _ ++ [v % 2 % 2] = (v % 2 :: lowBits (v / 2) n).reverse
    rw [List.reverse_cons, Nat.mod_mod_of_dvd _ (dvd_refl 2)]

/-- Reading `n` bits MSB-first from the reversed-bit stream recovers the
code value. -/
theorem readBitsMSB_reverse (n : Nat) : ∀ v acc rest, v < 2 ^ n →
    readBitsMSB acc n ((lowBits v n).reverse ++ rest) = some (acc * 2 ^ n + v, rest) := by
  induction n with
  | zero =>
    intro v acc rest hv
    have : v = 0 := by omega
    subst this
    show some (acc, rest) = some (acc * 2 ^ 0 + 0, rest)
    norm_num
  | succ n ih =>
    intro v acc rest hv
    have hsplit := lowBits_split n 1 v
    have hv1 : v / 2 ^ n < 2 := by
      rw [Nat.div_lt_iff_lt_mul (Nat.two_pow_pos n)]
      calc v < 2 ^ (n + 1) := hv
        _ = 2 * 2 ^ n := by rw [pow_succ]; ring
    have hone : lowBits (v / 2 ^ n) 1 = [v / 2 ^ n] := by
      show [v / 2 ^ n % 2] = [v / 2 ^ n]
      rw [Nat.mod_eq_of_lt hv1]
    rw [hsplit, hone, List.reverse_append]
    show readBitsMSB acc (n + 1) (v / 2 ^ n :: ((lowBits (v % 2 ^ n) n).reverse ++ rest)) = _
    rw [readBitsMSB]
    rw [ih (v % 2 ^ n) (2 * acc + v / 2 ^ n) rest (Nat.mod_lt _ (Nat.two_pow_pos n))]
    congr 1
    have hdm := Nat.div_add_mod v (2 ^ n)
    have : (2 * acc + v / 2 ^ n) * 2 ^ n + v % 2 ^ n =
        acc * 2 ^ (n + 1) + (2 ^ n * (v / 2 ^ n) + v % 2 ^ n) := by
      rw [pow_succ]
      ring
    rw [this, hdm]

theorem readBitsMSB_extend (n : Nat) : ∀ acc bits v r ext,
    readBitsMSB acc n bits = some (v, r) →
    readBitsMSB acc n (bits ++ ext) = some (v, r ++ ext) := by
  induction n with
  | zero =>
    intro acc bits v r ext h
    rw [readBitsMSB] at h
    cases h
    rfl
  | succ n ih =>
    intro acc bits v r ext h
    cases bits with
    | nil => cases h
    | cons b rest =>
      rw [List.cons_append]
      simp only [readBitsMSB] at h ⊢
      exact ih _ rest v r ext h

/-! ### Canonical Huffman decoding (decoder side, RFC 1951 §3.2.2)

A standard table-driven decoder: from the code lengths it precomputes, per
code length, the canonical starting code and the symbol count, and decodes a
code MSB-first bit by bit — a code of length `len` with value `c` denotes
the `(c − next_code[len])`-th symbol of length `len`. -/

/-- `next_code` for each length 0..15. -/
def nextCodeTable (L : List Nat) : List Nat := (List.range 16).map (nextCode L)

/-- Number of symbols of each length 0..15. -/
def countTable (L : List Nat) : List Nat := (List.range 16).map (fun l => L.count l)

/-- A decoding table: the lengths plus the two precomputed arrays. -/
structure HuffDec where
  lengths : List Nat
  nc : List Nat
  cnt : List Nat
deriving DecidableEq

def buildDec (L : List Nat) : HuffDec := ⟨L, nextCodeTable L, countTable L⟩

/-- Position of the `n`-th (0-based) symbol of length `len`. -/
def nthLengthIndex : List Nat → Nat → Nat → Option Nat
  | [], _, _ => none
  | l :: rest, len, n =>
    if l = len then
      if n = 0 then some 0
      else (nthLengthIndex rest len (n - 1)).map (· + 1)
    else (nthLengthIndex rest len n).map (· + 1)

/-- The symbol denoted by code value `code` at length `len`, if any. -/
def canonicalSym (dec : HuffDec) (len code : Nat) : Option Nat :=
  if dec.nc.getD len 0 ≤ code ∧ code < dec.nc.getD len 0 + dec.cnt.getD len 0 then
    nthLengthIndex dec.lengths len (code - dec.nc.getD len 0)
  else none

/-- Decode one Huffman symbol, reading bits MSB-first. -/
def decodeSym (dec : HuffDec) : Nat → Nat → Nat → List Nat → Option (Nat × List Nat)
  | 0, _, _, _ => none
  | fuel + 1, len, code, bits =>
    match bits with
    | [] => none
    | b :: rest =>
      match canonicalSym dec (len + 1) (2 * code + b) with
      | some s => some (s, rest)
      | none => decodeSym dec fuel (len + 1) (2 * code + b) rest

theorem decodeSym_extend (dec : HuffDec) : ∀ fuel len code bits s r ext,
    decodeSym dec fuel len code bits = some (s, r) →
    decodeSym dec fuel len code (bits ++ ext) = some (s, r ++ ext) := by
  intro fuel
  induction fuel with
  | zero => intro len code bits s r ext h; cases h
  | succ fuel ih =>
    intro len code bits s r ext h
    cases bits with
    | nil => cases h
    | cons b rest =>
      rw [List.cons_append]
      simp only [decodeSym] at h ⊢
      cases hc : canonicalSym dec (len + 1) (2 * code + b) with
      | some s' =>
        rw [hc] at h
        dsimp only at h ⊢
        cases h
        rfl
      | none =>
        rw [hc] at h
        dsimp only at h ⊢
        exact ih (len + 1) (2 * code + b) rest s r ext h

/-- The bit stream a symbol contributes (its code, as written by the
LSB-first writer). -/
def symStream (L : List Nat) (s : Nat) : List Nat :=
  lowBits (symbolCode L s).1 (symbolCode L s).2

/-- The fixed literal/length decoding table, precomputed. -/
def FIXED_LIT_DEC : HuffDec :=
  ⟨FIXED_CODE_LENGTHS,
   [0, 0, 0, 0, 0, 0, 0, 0, 48, 400, 1024, 2048, 4096, 8192, 16384, 32768],
   [0, 0, 0, 0, 0, 0, 0, 24, 152, 112, 0, 0, 0, 0, 0, 0]⟩

/-- The fixed distance decoding table, precomputed. -/
def FIXED_DIST_DEC : HuffDec :=
  ⟨FIXED_CODE_LENGTHS_DISTANCE,
   [0, 0, 0, 0, 0, 0, 60, 120, 240, 480, 960, 1920, 3840, 7680, 15360, 30720],
   [0, 0, 0, 0, 0, 30, 0, 0, 0, 0, 0, 0, 0, 0, 0, 0]⟩

theorem buildDec_fixed_lit : buildDec FIXED_CODE_LENGTHS = FIXED_LIT_DEC := by decide

theorem buildDec_fixed_dist :
    buildDec FIXED_CODE_LENGTHS_DISTANCE = FIXED_DIST_DEC := by decide

theorem fixed_lit_decode_closed : ∀ t < 288,
    decodeSym FIXED_LIT_DEC 16 0 0 (symStream FIXED_CODE_LENGTHS t) =
      some (t, []) := by decide

theorem fixed_dist_decode_closed : ∀ t < 30,
    decodeSym FIXED_DIST_DEC 16 0 0 (symStream FIXED_CODE_LENGTHS_DISTANCE t) =
      some (t, []) := by decide

theorem fixed_lit_decode (s : Nat) (hs : s < 288) (rest : List Nat) :
    decodeSym FIXED_LIT_DEC 16 0 0 (symStream FIXED_CODE_LENGTHS s ++ rest) =
      some (s, rest) := by
  have h := decodeSym_extend FIXED_LIT_DEC 16 0 0 (symStream FIXED_CODE_LENGTHS s)
    s [] rest (fixed_lit_decode_closed s hs)
  simpa using h

theorem fixed_dist_decode (s : Nat) (hs : s < 30) (rest : List Nat) :
    decodeSym FIXED_DIST_DEC 16 0 0
      (symStream FIXED_CODE_LENGTHS_DISTANCE s ++ rest) = some (s, rest) := by
  have h := decodeSym_extend FIXED_DIST_DEC 16 0 0
    (symStream FIXED_CODE_LENGTHS_DISTANCE s) s [] rest
    (fixed_dist_decode_closed s hs)
  simpa using h

theorem fixed_lit_len_bounds : ∀ s < 288,
    7 ≤ FIXED_CODE_LENGTHS.getD s 0 ∧ FIXED_CODE_LENGTHS.getD s 0 ≤ 9 := by decide

theorem fixed_dist_len_bounds : ∀ s < 30,
    FIXED_CODE_LENGTHS_DISTANCE.getD s 0 = 5 := by decide

/-! ### Decoding the body of a compressed block -/

/-- Decode literal/length/distance symbols until the end-of-block symbol,
reconstructing the output (RFC 1951 §3.2.3 step 2). -/
def decodeBody (litDec distDec : HuffDec) : Nat → List Nat → List Nat →
    Option (List Nat × List Nat)
  | 0, _, _ => none
  | fuel + 1, bits, o =>
    match decodeSym litDec 16 0 0 bits with
    | none => none
    | some (s, r) =>
      if s < 256 then decodeBody litDec distDec fuel r (o ++ [s])
      else if s = 256 then some (o, r)
      else if s ≤ 285 then
        match readBits (LENGTH_TABLE.getD (s - 257) (0, 0)).2 r with
        | none => none
        | some (e, r2) =>
          match decodeSym distDec 16 0 0 r2 with
          | none => none
          | some (ds, r3) =>
            if ds < 30 then
              match readBits (DISTANCE_TABLE.getD ds (0, 0)).2 r3 with
              | none => none
              | some (e2, r4) =>
                decodeBody litDec distDec fuel r4
                  (lzCopy o ((DISTANCE_TABLE.getD ds (0, 0)).1 + e2)
                    ((LENGTH_TABLE.getD (s - 257) (0, 0)).1 + e))
            else none
      else none

/-- Definitional unfolding of `decodeBody` at positive fuel. -/
theorem decodeBody_succ (litDec distDec : HuffDec) (fuel : Nat) (bits o) :
    decodeBody litDec distDec (fuel + 1) bits o =
    (match decodeSym litDec 16 0 0 bits with
    | none => none
    | some (s, r) =>
      if s < 256 then decodeBody litDec distDec fuel r (o ++ [s])
      else if s = 256 then some (o, r)
      else if s ≤ 285 then
        match readBits (LENGTH_TABLE.getD (s - 257) (0, 0)).2 r with
        | none => none
        | some (e, r2) =>
          match decodeSym distDec 16 0 0 r2 with
          | none => none
          | some (ds, r3) =>
            if ds < 30 then
              match readBits (DISTANCE_TABLE.getD ds (0, 0)).2 r3 with
              | none => none
              | some (e2, r4) =>
                decodeBody litDec distDec fuel r4
                  (lzCopy o ((DISTANCE_TABLE.getD ds (0, 0)).1 + e2)
                    ((LENGTH_TABLE.getD (s - 257) (0, 0)).1 + e))
            else none
      else none) := rfl

/-- The `write_bits` calls `EncoderState::write_ldpair` makes for one
symbol. -/
def symCalls (litL distL : List Nat) : LDPair → List (Nat × Nat)
  | LDPair.literal v => [symbolCode litL v]
  | LDPair.lengthDistance l d =>
    [symbolCode litL (257 + codeIndexFor LENGTH_TABLE l),
     (l - (LENGTH_TABLE.getD (codeIndexFor LENGTH_TABLE l) (0, 0)).1,
      (LENGTH_TABLE.getD (codeIndexFor LENGTH_TABLE l) (0, 0)).2),
     symbolCode distL (codeIndexFor DISTANCE_TABLE d),
     (d - (DISTANCE_TABLE.getD (codeIndexFor DISTANCE_TABLE d) (0, 0)).1,
      (DISTANCE_TABLE.getD (codeIndexFor DISTANCE_TABLE d) (0, 0)).2)]
  | LDPair.blockStart _ => []

def symsCalls (litL distL : List Nat) : List LDPair → List (Nat × Nat)
  | [] => []
  | ld :: rest => symCalls litL distL ld ++ symsCalls litL distL rest

theorem callBits_append (a b : List (Nat × Nat)) :
    callBits (a ++ b) = callBits a ++ callBits b := by
  induction a with
  | nil => rfl
  | cons c cs ih => simp [callBits, ih]

/-- The writer fold of `compress_data_fixed` is the flat `write_bits` fold
over the per-symbol call lists. -/
theorem foldl_enc_eq_calls (syms : List LDPair) : ∀ w : BitWriter,
    syms.foldl (fun w ld =>
      match ld with
      | LDPair.blockStart _ => w
      | LDPair.literal v => write_literal FIXED_CODE_LENGTHS w v
      | LDPair.lengthDistance l d =>
          write_length_distance FIXED_CODE_LENGTHS FIXED_CODE_LENGTHS_DISTANCE w l d) w =
    (symsCalls FIXED_CODE_LENGTHS FIXED_CODE_LENGTHS_DISTANCE syms).foldl
      (fun w c => w.write_bits c.1 c.2) w := by
  induction syms with
  | nil => intro w; rfl
  | cons ld rest ih =>
    intro w
    cases ld with
    | blockStart f =>
      show rest.foldl _ w = _
      rw [ih w]
      rfl
    | literal v =>
      show rest.foldl _ (write_literal FIXED_CODE_LENGTHS w v) = _
      rw [ih]
      rfl
    | lengthDistance l d =>
      show rest.foldl _ (write_length_distance FIXED_CODE_LENGTHS
        FIXED_CODE_LENGTHS_DISTANCE w l d) = _
      rw [ih]
      show _ = (symCalls FIXED_CODE_LENGTHS FIXED_CODE_LENGTHS_DISTANCE
        (LDPair.lengthDistance l d) ++ _).foldl _ w
      rw [List.foldl_append]
      rfl

/-- Generic facts about the prefix kept by `takeWhile`: every kept entry
satisfies the predicate and the first dropped entry (if any) fails it. -/
theorem takeWhile_facts (p : Nat × Nat → Bool) (t : List (Nat × Nat)) :
    (t.takeWhile p).length ≤ t.length ∧
    (∀ i, i < (t.takeWhile p).length → p (t.getD i (0, 0)) = true) ∧
    ((t.takeWhile p).length < t.length →
      p (t.getD (t.takeWhile p).length (0, 0)) = false) := by
  induction t with
  | nil =>
    refine ⟨le_refl _, fun i hi => absurd hi (by simp), fun h => absurd h (by simp)⟩
  | cons a rest ih =>
    obtain ⟨ih1, ih2, ih3⟩ := ih
    by_cases hpa : p a = true
    · rw [List.takeWhile_cons, if_pos hpa]
      refine ⟨by simpa using ih1, ?_, ?_⟩
      · intro i hi
        cases i with
        | zero => exact hpa
        | succ i => exact ih2 i (by simpa using hi)
      · intro h
        simp only [List.length_cons] at h ⊢
        show p (rest.getD (rest.takeWhile p).length (0, 0)) = false
        exact ih3 (by omega)
    · rw [List.takeWhile_cons, if_neg hpa]
      refine ⟨by simp, fun i hi => absurd hi (by simp), fun _ => ?_⟩
      show p a = false
      cases hb : p a with
      | false => rfl
      | true => exact absurd hb hpa

theorem length_table_facts :
    LENGTH_TABLE.length = 29 ∧
    (LENGTH_TABLE.getD 0 (0, 0)).1 = 3 ∧
    (∀ i < 28, (LENGTH_TABLE.getD (i + 1) (0, 0)).1 ≤
      (LENGTH_TABLE.getD i (0, 0)).1 + 2 ^ (LENGTH_TABLE.getD i (0, 0)).2) ∧
    (∀ i < 29, (LENGTH_TABLE.getD i (0, 0)).2 ≤ 5) ∧
    LENGTH_TABLE.getD 28 (0, 0) = (258, 0) := by decide

theorem distance_table_facts :
    DISTANCE_TABLE.length = 30 ∧
    (DISTANCE_TABLE.getD 0 (0, 0)).1 = 1 ∧
    (∀ i < 29, (DISTANCE_TABLE.getD (i + 1) (0, 0)).1 ≤
      (DISTANCE_TABLE.getD i (0, 0)).1 + 2 ^ (DISTANCE_TABLE.getD i (0, 0)).2) ∧
    (∀ i < 30, (DISTANCE_TABLE.getD i (0, 0)).2 ≤ 13) ∧
    DISTANCE_TABLE.getD 29 (0, 0) = (24577, 13) := by decide

/-- Bracketing of a match length in the length-code table. -/
theorem length_table_bracket (l : Nat) (h3 : 3 ≤ l) (h258 : l ≤ 258) :
    codeIndexFor LENGTH_TABLE l ≤ 28 ∧
    (LENGTH_TABLE.getD (codeIndexFor LENGTH_TABLE l) (0, 0)).1 ≤ l ∧
    l - (LENGTH_TABLE.getD (codeIndexFor LENGTH_TABLE l) (0, 0)).1 <
      2 ^ (LENGTH_TABLE.getD (codeIndexFor LENGTH_TABLE l) (0, 0)).2 ∧
    (LENGTH_TABLE.getD (codeIndexFor LENGTH_TABLE l) (0, 0)).2 ≤ 5 := by
  obtain ⟨hlen, hbase0, hstep, hebound, hlast⟩ := length_table_facts
  obtain ⟨hk_le, hk_all, hk_bound⟩ :=
    takeWhile_facts (fun b => decide (b.1 ≤ l)) LENGTH_TABLE
  have hci : codeIndexFor LENGTH_TABLE l =
      (LENGTH_TABLE.takeWhile (fun b => decide (b.1 ≤ l))).length - 1 := rfl
  rw [hlen] at hk_le hk_bound
  have hk1 : 1 ≤ (LENGTH_TABLE.takeWhile (fun b => decide (b.1 ≤ l))).length := by
    by_contra hcon
    have hk0 : (LENGTH_TABLE.takeWhile (fun b => decide (b.1 ≤ l))).length = 0 := by
      omega
    have hb := hk_bound (by omega)
    rw [hk0] at hb
    simp only [decide_eq_false_iff_not] at hb
    omega
  have hin := hk_all ((LENGTH_TABLE.takeWhile (fun b => decide (b.1 ≤ l))).length - 1)
    (by omega)
  simp only [decide_eq_true_eq] at hin
  rw [hci]
  rcases le_or_lt (LENGTH_TABLE.takeWhile (fun b => decide (b.1 ≤ l))).length 28 with
    hk28 | hk29
  · have hb := hk_bound (by omega)
    simp only [decide_eq_false_iff_not] at hb
    have hstepk := hstep
      ((LENGTH_TABLE.takeWhile (fun b => decide (b.1 ≤ l))).length - 1) (by omega)
    have harith : (LENGTH_TABLE.takeWhile (fun b => decide (b.1 ≤ l))).length - 1 + 1 =
        (LENGTH_TABLE.takeWhile (fun b => decide (b.1 ≤ l))).length := by omega
    rw [harith] at hstepk
    have he := hebound
      ((LENGTH_TABLE.takeWhile (fun b => decide (b.1 ≤ l))).length - 1) (by omega)
    exact ⟨by omega, hin, by omega, he⟩
  · have hk29' : (LENGTH_TABLE.takeWhile (fun b => decide (b.1 ≤ l))).length = 29 := by
      omega
    rw [hk29'] at hin ⊢
    have h28 : (29 : Nat) - 1 = 28 := rfl
    rw [h28] at hin ⊢
    rw [hlast] at hin ⊢
    simp only [Prod.fst, Prod.snd] at hin ⊢
    norm_num at hin ⊢
    omega

/-- Bracketing of a match distance in the distance-code table. -/
theorem distance_table_bracket (d : Nat) (h1 : 1 ≤ d) (h32 : d ≤ 32768) :
    codeIndexFor DISTANCE_TABLE d ≤ 29 ∧
    (DISTANCE_TABLE.getD (codeIndexFor DISTANCE_TABLE d) (0, 0)).1 ≤ d ∧
    d - (DISTANCE_TABLE.getD (codeIndexFor DISTANCE_TABLE d) (0, 0)).1 <
      2 ^ (DISTANCE_TABLE.getD (codeIndexFor DISTANCE_TABLE d) (0, 0)).2 ∧
    (DISTANCE_TABLE.getD (codeIndexFor DISTANCE_TABLE d) (0, 0)).2 ≤ 13 := by
  obtain ⟨hlen, hbase0, hstep, hebound, hlast⟩ := distance_table_facts
  obtain ⟨hk_le, hk_all, hk_bound⟩ :=
    takeWhile_facts (fun b => decide (b.1 ≤ d)) DISTANCE_TABLE
  have hci : codeIndexFor DISTANCE_TABLE d =
      (DISTANCE_TABLE.takeWhile (fun b => decide (b.1 ≤ d))).length - 1 := rfl
  rw [hlen] at hk_le hk_bound
  have hk1 : 1 ≤ (DISTANCE_TABLE.takeWhile (fun b => decide (b.1 ≤ d))).length := by
    by_contra hcon
    have hk0 : (DISTANCE_TABLE.takeWhile (fun b => decide (b.1 ≤ d))).length = 0 := by
      omega
    have hb := hk_bound (by omega)
    rw [hk0] at hb
    simp only [decide_eq_false_iff_not] at hb
    omega
  have hin := hk_all ((DISTANCE_TABLE.takeWhile (fun b => decide (b.1 ≤ d))).length - 1)
    (by omega)
  simp only [decide_eq_true_eq] at hin
  rw [hci]
  rcases le_or_lt (DISTANCE_TABLE.takeWhile (fun b => decide (b.1 ≤ d))).length 29 with
    hk29 | hk30
  · have hb := hk_bound (by omega)
    simp only [decide_eq_false_iff_not] at hb
    have hstepk := hstep
      ((DISTANCE_TABLE.takeWhile (fun b => decide (b.1 ≤ d))).length - 1) (by omega)
    have harith : (DISTANCE_TABLE.takeWhile (fun b => decide (b.1 ≤ d))).length - 1 + 1 =
        (DISTANCE_TABLE.takeWhile (fun b => decide (b.1 ≤ d))).length := by omega
    rw [harith] at hstepk
    have he := hebound
      ((DISTANCE_TABLE.takeWhile (fun b => decide (b.1 ≤ d))).length - 1) (by omega)
    exact ⟨by omega, hin, by omega, he⟩
  · have hk30' : (DISTANCE_TABLE.takeWhile (fun b => decide (b.1 ≤ d))).length = 30 := by
      omega
    rw [hk30'] at hin ⊢
    have h29 : (30 : Nat) - 1 = 29 := rfl
    rw [h29] at hin ⊢
    rw [hlast] at hin ⊢
    simp only [Prod.fst, Prod.snd] at hin ⊢
    norm_num at hin ⊢
    omega

/-- What the Huffman body stage needs of a symbol: literal bytes, in-range
matches, no block markers. -/
def SymOk : LDPair → Prop
  | LDPair.literal v => v < 256
  | LDPair.lengthDistance l d => 3 ≤ l ∧ l ≤ 258 ∧ 1 ≤ d ∧ d ≤ 32768
  | LDPair.blockStart _ => False

/-- Decoding the encoded symbols followed by the end-of-block code yields
exactly the LZ77 decode of the symbols and consumes exactly those bits. -/
theorem decodeBody_correct (rest : List Nat) : ∀ syms : List LDPair, ∀ fuel o,
    (∀ ld ∈ syms, SymOk ld) →
    syms.length + 1 ≤ fuel →
    decodeBody FIXED_LIT_DEC FIXED_DIST_DEC fuel
      (callBits (symsCalls FIXED_CODE_LENGTHS FIXED_CODE_LENGTHS_DISTANCE syms) ++
        (symStream FIXED_CODE_LENGTHS 256 ++ rest)) o =
      some (decodeLZ syms o, rest) := by
  intro syms
  induction syms with
  | nil =>
    intro fuel o _ hfuel
    cases fuel with
    | zero => omega
    | succ f =>
      show decodeBody _ _ (f + 1)
        (callBits [] ++ (symStream FIXED_CODE_LENGTHS 256 ++ rest)) o = _
      rw [show callBits [] = [] from rfl, List.nil_append]
      rw [decodeBody_succ]
      rw [fixed_lit_decode 256 (by omega) rest]
      rfl
  | cons ld syms ih =>
    intro fuel o hok hfuel
    have hldok := hok ld (List.mem_cons_self _ _)
    have hrestok : ∀ x ∈ syms, SymOk x := fun x hx => hok x (List.mem_cons_of_mem _ hx)
    have hfuel' : syms.length + 1 ≤ fuel - 1 := by
      simp only [List.length_cons] at hfuel
      omega
    cases fuel with
    | zero => omega
    | succ f =>
      cases ld with
      | blockStart b => exact hldok.elim
      | literal v =>
        simp only [symsCalls, symCalls, callBits_append, callBits, List.append_nil,
          List.append_assoc]
        rw [decodeBody_succ]
        rw [show lowBits (symbolCode FIXED_CODE_LENGTHS v).1
          (symbolCode FIXED_CODE_LENGTHS v).2 = symStream FIXED_CODE_LENGTHS v from rfl]
        rw [fixed_lit_decode v (by
          have : v < 256 := hldok
          omega) _]
        dsimp only
        rw [if_pos (show v < 256 from hldok)]
        exact ih f (o ++ [v]) hrestok (by simpa using hfuel')
      | lengthDistance l d =>
        obtain ⟨h3, h258, hd1, hd32⟩ := hldok
        obtain ⟨hli, hbase, hlt, hwid⟩ := length_table_bracket l h3 h258
        obtain ⟨hdi, hdbase, hdlt, hdwid⟩ := distance_table_bracket d hd1 hd32
        simp only [symsCalls, symCalls, callBits_append, callBits, List.append_nil,
          List.append_assoc]
        rw [decodeBody_succ]
        rw [show lowBits (symbolCode FIXED_CODE_LENGTHS
            (257 + codeIndexFor LENGTH_TABLE l)).1
          (symbolCode FIXED_CODE_LENGTHS (257 + codeIndexFor LENGTH_TABLE l)).2 =
          symStream FIXED_CODE_LENGTHS (257 + codeIndexFor LENGTH_TABLE l) from rfl]
        rw [fixed_lit_decode (257 + codeIndexFor LENGTH_TABLE l) (by omega) _]
        dsimp only
        rw [if_neg (by omega), if_neg (by omega), if_pos (by omega)]
        have hsub : 257 + codeIndexFor LENGTH_TABLE l - 257 =
            codeIndexFor LENGTH_TABLE l := by omega
        rw [hsub]
        rw [readBits_lowBits _ _ _ hlt]
        dsimp only
        rw [show lowBits (symbolCode FIXED_CODE_LENGTHS_DISTANCE
            (codeIndexFor DISTANCE_TABLE d)).1
          (symbolCode FIXED_CODE_LENGTHS_DISTANCE (codeIndexFor DISTANCE_TABLE d)).2 =
          symStream FIXED_CODE_LENGTHS_DISTANCE (codeIndexFor DISTANCE_TABLE d) from rfl]
        rw [fixed_dist_decode (codeIndexFor DISTANCE_TABLE d) (by omega) _]
        dsimp only
        rw [if_pos (by omega)]
        rw [readBits_lowBits _ _ _ hdlt]
        dsimp only
        rw [Nat.add_sub_cancel' hbase, Nat.add_sub_cancel' hdbase]
        exact ih f (lzCopy o d l) hrestok hfuel'

/-! ### Remaining encoder pieces (spec-modelled) and the full decoder -/

/-- Read `n` whole bytes (8 bits each, LSB-first). -/
def readBytes : Nat → List Nat → Option (List Nat × List Nat)
  | 0, bits => some ([], bits)
  | n + 1, bits =>
    match readBits 8 bits with
    | none => none
    | some (b, r) =>
      match readBytes n r with
      | none => none
      | some (bs, r2) => some (b :: bs, r2)

/-- Modelled from the spec (§4.6): the RFC 1951 permutation of the
code-length alphabet. -/
def CODE_LENGTH_ORDER : List Nat :=
  [16, 17, 18, 0, 8, 7, 9, 6, 10, 5, 11, 4, 12, 3, 13, 2, 14, 1, 15]

/-- Modelled from the spec (§4.6): the code lengths this encoder assigns to
the code-length alphabet.  Only the symbols 5, 7, 8 and 9 occur (the fixed
tables contain no other lengths), and four 2-bit codes satisfy the Kraft
equality exactly. -/
def CL_LENGTHS : List Nat :=
  [0, 0, 0, 0, 0, 2, 0, 2, 2, 2, 0, 0, 0, 0, 0, 0, 0, 0, 0]

/-- Modelled from the spec (§4.6): `write_huffman_lengths` — `HLIT`,
`HDIST`, `HCLEN`, the 3-bit code-length-code lengths in permuted order, and
each code length of the literal/length then distance tables coded with the
code-length code (this encoder uses only plain symbols 0-15 of the RLE
alphabet). -/
def write_huffman_lengths (litLen distLen : List Nat) (w : BitWriter) : BitWriter :=
  let w1 := w.write_bits (litLen.length - 257) 5
  let w2 := w1.write_bits (distLen.length - 1) 5
  let w3 := w2.write_bits 6 4
  let w4 := (CODE_LENGTH_ORDER.take 10).foldl
    (fun w s => w.write_bits (CL_LENGTHS.getD s 0) 3) w3
  (litLen ++ distLen).foldl
    (fun w ℓ => w.write_bits (symbolCode CL_LENGTHS ℓ).1 (symbolCode CL_LENGTHS ℓ).2) w4

/-- `compress_data_dynamic` (src/lib.rs, lines 201-236): the symbol stream
must begin with `BlockStart` (the source panics otherwise, modelled by
`none`); the block header, the spec-modelled code-length description, the
symbols and the end-of-block code are written, then the writer is flushed.
The source reuses the fixed code-length tables for its dynamic block. -/
def compress_data_dynamic (input : List Nat) : Option (List Nat) :=
  match lz77_compress input with
  | none => none
  | some compressed =>
    match compressed with
    | LDPair.blockStart isFinal :: restSyms =>
      let w0 := write_start_of_block false isFinal BitWriter.new
      let w1 := write_huffman_lengths FIXED_CODE_LENGTHS FIXED_CODE_LENGTHS_DISTANCE w0
      let w2 := restSyms.foldl (fun w ld =>
        match ld with
        | LDPair.blockStart _ => w
        | LDPair.literal v => write_literal FIXED_CODE_LENGTHS w v
        | LDPair.lengthDistance l d =>
            write_length_distance FIXED_CODE_LENGTHS FIXED_CODE_LENGTHS_DISTANCE w l d)
        w1
      let w3 := write_end_of_block FIXED_CODE_LENGTHS w2
      match w3.finish with
      | none => none
      | some wf => some wf.buffer
    | _ => none

/-- Modelled from the spec (§4.6 Stored): one stored block per ≤ 65535-byte
chunk — header byte `{BFINAL,00}` zero-padded to the byte boundary, `LEN`
and `NLEN = ~LEN` little-endian, then the raw bytes. -/
def storedChunks : Nat → List Nat → List Nat
  | 0, _ => []
  | fuel + 1, data =>
    if data.length ≤ 65535 then
      1 :: data.length % 256 :: data.length / 256 ::
        (65535 - data.length) % 256 :: (65535 - data.length) / 256 :: data
    else
      (0 :: 255 :: 255 :: 0 :: 0 :: data.take 65535) ++
        storedChunks fuel (data.drop 65535)

/-- Modelled from the spec (§4.6): `stored_block::compress_data_stored`. -/
def compress_data_stored (input : List Nat) : List Nat :=
  storedChunks (input.length + 1) input

/-- `BType` (src/lib.rs, lines 27-31). -/
inductive BType where
  | NoCompression
  | FixedHuffman
  | DynamicHuffman
deriving DecidableEq

/-- `compress_data` (src/lib.rs, lines 238-244). -/
def compress_data (input : List Nat) : BType → Option (List Nat)
  | BType.NoCompression => some (compress_data_stored input)
  | BType.FixedHuffman => compress_data_fixed input
  | BType.DynamicHuffman => compress_data_dynamic input

/-- The 19 code-length-alphabet lengths recovered from the permuted 3-bit
entries (missing entries are 0). -/
def clLengths (vals : List Nat) : List Nat :=
  (List.range 19).map (fun s => vals.getD (CODE_LENGTH_ORDER.findIdx (fun x => x == s)) 0)

/-- Read `n` 3-bit code-length-code lengths. -/
def readClcl : Nat → List Nat → Option (List Nat × List Nat)
  | 0, bits => some ([], bits)
  | n + 1, bits =>
    match readBits 3 bits with
    | none => none
    | some (v, r) =>
      match readClcl n r with
      | none => none
      | some (vs, r2) => some (v :: vs, r2)

/-- Decode exactly `target` code lengths with the code-length code and its
RLE symbols 16/17/18 (RFC 1951 §3.2.7); `acc` holds the lengths read so
far, newest first. -/
def readCodeLengths (clDec : HuffDec) : Nat → Nat → List Nat → List Nat →
    Option (List Nat × List Nat)
  | 0, _, _, _ => none
  | fuel + 1, target, acc, bits =>
    if target ≤ acc.length then
      if acc.length = target then some (acc.reverse, bits) else none
    else
      match decodeSym clDec 16 0 0 bits with
      | none => none
      | some (s, r) =>
        if s ≤ 15 then readCodeLengths clDec fuel target (s :: acc) r
        else if s = 16 then
          match readBits 2 r with
          | none => none
          | some (e, r2) =>
            match acc with
            | [] => none
            | prev :: _ =>
              readCodeLengths clDec fuel target (List.replicate (3 + e) prev ++ acc) r2
        else if s = 17 then
          match readBits 3 r with
          | none => none
          | some (e, r2) =>
            readCodeLengths clDec fuel target (List.replicate (3 + e) 0 ++ acc) r2
        else if s = 18 then
          match readBits 7 r with
          | none => none
          | some (e, r2) =>
            readCodeLengths clDec fuel target (List.replicate (11 + e) 0 ++ acc) r2
        else none

/-- Parse the dynamic-block code-length description (RFC 1951 §3.2.7):
`HLIT`, `HDIST`, `HCLEN`, the permuted code-length-code lengths, and the
run-length-coded literal/length and distance code lengths. -/
def parseDynHeader (bits : List Nat) : Option (List Nat × List Nat × List Nat) :=
  match readBits 5 bits with
  | none => none
  | some (hlit, r1) =>
    match readBits 5 r1 with
    | none => none
    | some (hdist, r2) =>
      match readBits 4 r2 with
      | none => none
      | some (hclen, r3) =>
        match readClcl (hclen + 4) r3 with
        | none => none
        | some (vals, r4) =>
          match readCodeLengths (buildDec (clLengths vals))
              (hlit + 257 + (hdist + 1) + 1) (hlit + 257 + (hdist + 1)) [] r4 with
          | none => none
          | some (lens, r5) =>
            some (lens.take (hlit + 257), lens.drop (hlit + 257), r5)

/-- The block loop of the reference decoder: read the 3 header bits and
dispatch on the block type, until the final block. -/
def inflateBlocks : Nat → List Nat → List Nat → Option (List Nat)
  | 0, _, _ => none
  | fuel + 1, bits, o =>
    match readBits 1 bits with
    | none => none
    | some (bfinal, r1) =>
      match readBits 2 r1 with
      | none => none
      | some (btype, r2) =>
        if btype = 0 then
          match readBits 16 (r2.drop (r2.length % 8)) with
          | none => none
          | some (len, r4) =>
            match readBits 16 r4 with
            | none => none
            | some (nlen, r5) =>
              if len + nlen = 65535 then
                match readBytes len r5 with
                | none => none
                | some (chunk, r6) =>
                  if bfinal = 1 then some (o ++ chunk)
                  else inflateBlocks fuel r6 (o ++ chunk)
              else none
        else if btype = 1 then
          match decodeBody (buildDec FIXED_CODE_LENGTHS)
              (buildDec FIXED_CODE_LENGTHS_DISTANCE) (r2.length + 1) r2 o with
          | none => none
          | some (o', r3) =>
            if bfinal = 1 then some o' else inflateBlocks fuel r3 o'
        else if btype = 2 then
          match parseDynHeader r2 with
          | none => none
          | some (litL, distL, r3) =>
            match decodeBody (buildDec litL) (buildDec distL) (r3.length + 1) r3 o with
            | none => none
            | some (o', r4) =>
              if bfinal = 1 then some o' else inflateBlocks fuel r4 o'
        else none

/-- The reference RFC 1951 decoder: the LSB-first bit stream of the bytes,
fed to the block loop. -/
def inflate (bytes : List Nat) : Option (List Nat) :=
  inflateBlocks (bytes.length + 1) (bytesBits bytes) []

/-! ### Validity of the writer calls made by the encoders -/

theorem litCall_valid (s : Nat) (hs : s < 288) :
    (symbolCode FIXED_CODE_LENGTHS s).2 ≤ 16 ∧
      (symbolCode FIXED_CODE_LENGTHS s).1 < 2 ^ (symbolCode FIXED_CODE_LENGTHS s).2 := by
  obtain ⟨h7, h9⟩ := fixed_lit_len_bounds s hs
  exact ⟨by simp only [symbolCode]; omega, reverseBits_lt _ _⟩

theorem distCall_valid (s : Nat) (hs : s < 30) :
    (symbolCode FIXED_CODE_LENGTHS_DISTANCE s).2 ≤ 16 ∧
      (symbolCode FIXED_CODE_LENGTHS_DISTANCE s).1 <
        2 ^ (symbolCode FIXED_CODE_LENGTHS_DISTANCE s).2 := by
  have h5 := fixed_dist_len_bounds s hs
  exact ⟨by simp only [symbolCode]; omega, reverseBits_lt _ _⟩

theorem symCalls_valid (ld : LDPair) (hok : SymOk ld) :
    ∀ c ∈ symCalls FIXED_CODE_LENGTHS FIXED_CODE_LENGTHS_DISTANCE ld,
      c.2 ≤ 16 ∧ c.1 < 2 ^ c.2 := by
  cases ld with
  | blockStart b => exact hok.elim
  | literal v =>
    intro c hc
    have hv : v < 256 := hok
    rcases List.mem_singleton.mp hc with rfl
    exact litCall_valid v (by omega)
  | lengthDistance l d =>
    obtain ⟨h3, h258, hd1, hd32⟩ := hok
    obtain ⟨hli, hbase, hlt, hwid⟩ := length_table_bracket l h3 h258
    obtain ⟨hdi, hdbase, hdlt, hdwid⟩ := distance_table_bracket d hd1 hd32
    intro c hc
    simp only [symCalls, List.mem_cons, List.mem_singleton] at hc
    rcases hc with rfl | rfl | rfl | rfl | hc
    · exact litCall_valid _ (by omega)
    · dsimp only
      exact ⟨by omega, hlt⟩
    · exact distCall_valid _ (by omega)
    · dsimp only
      exact ⟨by omega, hdlt⟩
    · cases hc

theorem symsCalls_valid (syms : List LDPair) (hok : ∀ ld ∈ syms, SymOk ld) :
    ∀ c ∈ symsCalls FIXED_CODE_LENGTHS FIXED_CODE_LENGTHS_DISTANCE syms,
      c.2 ≤ 16 ∧ c.1 < 2 ^ c.2 := by
  induction syms with
  | nil => intro c hc; cases hc
  | cons ld rest ih =>
    intro c hc
    simp only [symsCalls] at hc
    rcases List.mem_append.mp hc with h | h
    · exact symCalls_valid ld (hok ld (List.mem_cons_self _ _)) c h
    · exact ih (fun x hx => hok x (List.mem_cons_of_mem _ hx)) c h

/-- Each symbol contributes at least one bit, so the symbol count bounds the
encoded bit length. -/
theorem symsCalls_bits_length (syms : List LDPair) (hok : ∀ ld ∈ syms, SymOk ld) :
    syms.length ≤
      (callBits (symsCalls FIXED_CODE_LENGTHS FIXED_CODE_LENGTHS_DISTANCE syms)).length := by
  induction syms with
  | nil => simp [symsCalls, callBits]
  | cons ld rest ih =>
    have hrest := ih (fun x hx => hok x (List.mem_cons_of_mem _ hx))
    have hld := hok ld (List.mem_cons_self _ _)
    have h1 : 1 ≤
        (callBits (symCalls FIXED_CODE_LENGTHS FIXED_CODE_LENGTHS_DISTANCE ld)).length := by
      cases ld with
      | blockStart b => exact hld.elim
      | literal v =>
        have hv : v < 256 := hld
        obtain ⟨h7, h9⟩ := fixed_lit_len_bounds v (by omega)
        simp only [symCalls, callBits, List.append_nil, List.length_append,
          List.length_nil, lowBits_length, symbolCode]
        omega
      | lengthDistance l d =>
        obtain ⟨h3, h258, hd1, hd32⟩ := hld
        obtain ⟨hli, hbase, hlt, hwid⟩ := length_table_bracket l h3 h258
        obtain ⟨h7, h9⟩ := fixed_lit_len_bounds (257 + codeIndexFor LENGTH_TABLE l)
          (by omega)
        simp only [symCalls, callBits, List.append_nil, List.length_append,
          List.length_nil, lowBits_length, symbolCode]
        omega
    simp only [symsCalls, callBits_append, List.length_append, List.length_cons]
    omega

/-- Flushing a writer that satisfies the invariant succeeds and yields the
stream so far, zero-padded to a whole byte. -/
theorem finish_stream (w : BitWriter) (hinv : WriterInv w) :
    ∃ w' pad, w.finish = some w' ∧ bytesBits w'.buffer = streamBits w ++ pad := by
  obtain ⟨hbp, hacc⟩ := hinv
  rw [BitWriter.finish]
  rw [if_neg (by omega)]
  by_cases h0 : w.bitPosition = 0
  · rw [if_neg (by omega)]
    refine ⟨w, [], rfl, ?_⟩
    rw [streamBits, h0]
    simp [lowBits]
  · rw [if_pos h0]
    refine ⟨_, lowBits (w.accumulator / 2 ^ w.bitPosition) (8 - w.bitPosition), rfl, ?_⟩
    show bytesBits (w.buffer ++ [w.accumulator % 256]) = _
    have hacc256 : w.accumulator % 256 = w.accumulator := by
      apply Nat.mod_eq_of_lt
      calc w.accumulator < 2 ^ w.bitPosition := hacc
        _ ≤ 2 ^ 7 := Nat.pow_le_pow_right (by omega) hbp
        _ < 256 := by norm_num
    rw [hacc256, bytesBits_append]
    show bytesBits w.buffer ++ (lowBits w.accumulator 8 ++ bytesBits []) = _
    rw [show bytesBits [] = [] from rfl, List.append_nil]
    have hsplit : lowBits w.accumulator 8 =
        lowBits w.accumulator w.bitPosition ++
          lowBits (w.accumulator / 2 ^ w.bitPosition) (8 - w.bitPosition) := by
      conv_lhs => rw [show (8 : Nat) = w.bitPosition + (8 - w.bitPosition) from by omega]
      rw [lowBits_split, Nat.mod_eq_of_lt hacc]
    rw [hsplit, streamBits, List.append_assoc]

/-- Definitional unfolding of `inflateBlocks` at positive fuel. -/
theorem inflateBlocks_succ (fuel : Nat) (bits o : List Nat) :
    inflateBlocks (fuel + 1) bits o =
    (match readBits 1 bits with
    | none => none
    | some (bfinal, r1) =>
      match readBits 2 r1 with
      | none => none
      | some (btype, r2) =>
        if btype = 0 then
          match readBits 16 (r2.drop (r2.length % 8)) with
          | none => none
          | some (len, r4) =>
            match readBits 16 r4 with
            | none => none
            | some (nlen, r5) =>
              if len + nlen = 65535 then
                match readBytes len r5 with
                | none => none
                | some (chunk, r6) =>
                  if bfinal = 1 then some (o ++ chunk)
                  else inflateBlocks fuel r6 (o ++ chunk)
              else none
        else if btype = 1 then
          match decodeBody (buildDec FIXED_CODE_LENGTHS)
              (buildDec FIXED_CODE_LENGTHS_DISTANCE) (r2.length + 1) r2 o with
          | none => none
          | some (o', r3) =>
            if bfinal = 1 then some o' else inflateBlocks fuel r3 o'
        else if btype = 2 then
          match parseDynHeader r2 with
          | none => none
          | some (litL, distL, r3) =>
            match decodeBody (buildDec litL) (buildDec distL) (r3.length + 1) r3 o with
            | none => none
            | some (o', r4) =>
              if bfinal = 1 then some o' else inflateBlocks fuel r4 o'
        else none) := rfl

/-- A final fixed-Huffman block (`bfinal = 1`, `btype = 01`) hands the rest
of the stream to the body decoder. -/
theorem inflateBlocks_fixed (fuel : Nat) (t o : List Nat) :
    inflateBlocks (fuel + 1) (1 :: 1 :: 0 :: t) o =
      match decodeBody (buildDec FIXED_CODE_LENGTHS) (buildDec FIXED_CODE_LENGTHS_DISTANCE)
          (t.length + 1) t o with
      | none => none
      | some (o', _) => some o' := by
  rw [inflateBlocks_succ]
  rw [show readBits 1 (1 :: 1 :: 0 :: t) = some (1, 1 :: 0 :: t) from rfl]
  dsimp only
  rw [show readBits 2 (1 :: 0 :: t) = some (1, t) from rfl]
  dsimp only
  rw [if_neg (by decide : ¬(1 = 0)), if_pos rfl]
  cases hd : decodeBody (buildDec FIXED_CODE_LENGTHS) (buildDec FIXED_CODE_LENGTHS_DISTANCE)
      (t.length + 1) t o with
  | none => rfl
  | some p =>
    obtain ⟨o', r⟩ := p
    rfl

/-- Round trip of the fixed-Huffman path: the reference decoder recovers the
input exactly. -/
theorem fixed_roundtrip (input : List Nat) (hbytes : ∀ b ∈ input, b < 256) :
    ∃ out, compress_data_fixed input = some out ∧ inflate out = some input := by
  obtain ⟨body, hlz, hdec, hval⟩ := lz77_compress_correct input
  have hok : ∀ ld ∈ body, SymOk ld := by
    intro ld hld
    have hv := hval ld hld
    cases ld with
    | blockStart b => exact hv.elim
    | literal v => exact hbytes v hv
    | lengthDistance l d => exact hv
  have hvalid : ∀ c ∈ (FIXED_FIRST_BYTE_FINAL, 3) ::
      (symsCalls FIXED_CODE_LENGTHS FIXED_CODE_LENGTHS_DISTANCE body ++
        [symbolCode FIXED_CODE_LENGTHS 256]), c.2 ≤ 16 ∧ c.1 < 2 ^ c.2 := by
    intro c hc
    rcases List.mem_cons.mp hc with rfl | hc
    · exact ⟨by decide, by decide⟩
    rcases List.mem_append.mp hc with hc | hc
    · exact symsCalls_valid body hok c hc
    · rcases List.mem_singleton.mp hc with rfl
      exact litCall_valid 256 (by omega)
  obtain ⟨hinv, hstream⟩ := runWriter_stream _ hvalid
  obtain ⟨wf, pad, hfin, hbuf⟩ := finish_stream _ hinv
  have hwriter :
      (LDPair.blockStart true :: body).foldl (fun w ld =>
        match ld with
        | LDPair.blockStart _ => w
        | LDPair.literal v => write_literal FIXED_CODE_LENGTHS w v
        | LDPair.lengthDistance l d =>
            write_length_distance FIXED_CODE_LENGTHS FIXED_CODE_LENGTHS_DISTANCE w l d)
        (write_start_of_block true true BitWriter.new) =
      (symsCalls FIXED_CODE_LENGTHS FIXED_CODE_LENGTHS_DISTANCE body).foldl
        (fun w c => w.write_bits c.1 c.2) (BitWriter.new.write_bits 3 3) := by
    rw [foldl_enc_eq_calls]
    rfl
  have hrw : write_end_of_block FIXED_CODE_LENGTHS
      ((symsCalls FIXED_CODE_LENGTHS FIXED_CODE_LENGTHS_DISTANCE body).foldl
        (fun w c => w.write_bits c.1 c.2) (BitWriter.new.write_bits 3 3)) =
      runWriter ((FIXED_FIRST_BYTE_FINAL, 3) ::
        (symsCalls FIXED_CODE_LENGTHS FIXED_CODE_LENGTHS_DISTANCE body ++
          [symbolCode FIXED_CODE_LENGTHS 256])) := by
    rw [runWriter, List.foldl_cons, List.foldl_append]
    rfl
  refine ⟨wf.buffer, ?_, ?_⟩
  · rw [compress_data_fixed, hlz]
    dsimp only
    rw [hwriter, hrw, hfin]
  · have hbits : bytesBits wf.buffer =
        1 :: 1 :: 0 ::
          (callBits (symsCalls FIXED_CODE_LENGTHS FIXED_CODE_LENGTHS_DISTANCE body) ++
            (symStream FIXED_CODE_LENGTHS 256 ++ pad)) := by
      rw [hbuf, hstream, callBits, callBits_append]
      rw [show lowBits (FIXED_FIRST_BYTE_FINAL, 3).1 (FIXED_FIRST_BYTE_FINAL, 3).2 =
        [1, 1, 0] from rfl]
      rw [show callBits [symbolCode FIXED_CODE_LENGTHS 256] =
        symStream FIXED_CODE_LENGTHS 256 ++ [] from rfl]
      simp only [List.append_nil, List.cons_append, List.nil_append, List.append_assoc]
    have hfuel : body.length + 1 ≤
        (callBits (symsCalls FIXED_CODE_LENGTHS FIXED_CODE_LENGTHS_DISTANCE body) ++
          (symStream FIXED_CODE_LENGTHS 256 ++ pad)).length + 1 := by
      have h1 := symsCalls_bits_length body hok
      simp only [List.length_append]
      omega
    have hdb := decodeBody_correct pad body
      ((callBits (symsCalls FIXED_CODE_LENGTHS FIXED_CODE_LENGTHS_DISTANCE body) ++
        (symStream FIXED_CODE_LENGTHS 256 ++ pad)).length + 1) [] hok hfuel
    rw [inflate, hbits, inflateBlocks_fixed, buildDec_fixed_lit, buildDec_fixed_dist, hdb]
    dsimp only
    rw [hdec]

/-! ### Round trip of the stored path -/

theorem readBytes_bytesBits : ∀ data rest : List Nat, (∀ b ∈ data, b < 256) →
    readBytes data.length (bytesBits data ++ rest) = some (data, rest) := by
  intro data
  induction data with
  | nil => intro rest _; rfl
  | cons b bs ih =>
    intro rest h
    have hb : b < 256 := h b (List.mem_cons_self _ _)
    show readBytes (bs.length + 1) ((lowBits b 8 ++ bytesBits bs) ++ rest) =
      some (b :: bs, rest)
    rw [List.append_assoc]
    rw [readBytes]
    rw [readBits_lowBits 8 b _ (by omega)]
    dsimp only
    rw [ih rest (fun x hx => h x (List.mem_cons_of_mem _ hx))]

theorem storedChunks_length_ge : ∀ fuel data, data.length + 1 ≤ fuel →
    data.length ≤ (storedChunks fuel data).length := by
  intro fuel
  induction fuel with
  | zero =>
    intro data h
    omega
  | succ f ih =>
    intro data h
    rw [storedChunks]
    by_cases hle : data.length ≤ 65535
    · rw [if_pos hle]
      simp only [List.length_cons]
      omega
    · rw [if_neg hle]
      have hrec := ih (data.drop 65535) (by rw [List.length_drop]; omega)
      rw [List.length_drop] at hrec
      simp only [List.length_append, List.length_cons, List.length_take]
      omega

/-- Splitting a 16-bit LSB-first field into its two bytes. -/
theorem lowBits_split16 (v : Nat) (X : List Nat) :
    lowBits v 16 ++ X = lowBits (v % 256) 8 ++ (lowBits (v / 256) 8 ++ X) := by
  rw [show (16 : Nat) = 8 + 8 from rfl, lowBits_split, show (2 : Nat) ^ 8 = 256 from rfl,
    List.append_assoc]

/-- A stored block: the padded header byte hands `LEN`, `NLEN` and the raw
bytes to the stored-block reader. -/
theorem inflateBlocks_stored (fuel f : Nat) (t o : List Nat) (ht : t.length % 8 = 0) :
    inflateBlocks (fuel + 1) (f :: 0 :: 0 :: 0 :: 0 :: 0 :: 0 :: 0 :: t) o =
      (match readBits 16 t with
      | none => none
      | some (len, r4) =>
        match readBits 16 r4 with
        | none => none
        | some (nlen, r5) =>
          if len + nlen = 65535 then
            match readBytes len r5 with
            | none => none
            | some (chunk, r6) =>
              if f = 1 then some (o ++ chunk)
              else inflateBlocks fuel r6 (o ++ chunk)
          else none) := by
  rw [inflateBlocks_succ]
  rw [show readBits 1 (f :: 0 :: 0 :: 0 :: 0 :: 0 :: 0 :: 0 :: t) =
    some (f, 0 :: 0 :: 0 :: 0 :: 0 :: 0 :: 0 :: t) from rfl]
  dsimp only
  rw [show readBits 2 (0 :: 0 :: 0 :: 0 :: 0 :: 0 :: 0 :: t) =
    some (0, 0 :: 0 :: 0 :: 0 :: 0 :: t) from rfl]
  dsimp only
  rw [if_pos rfl]
  have h5 : (0 :: 0 :: 0 :: 0 :: 0 :: t).length % 8 = 5 := by
    simp only [List.length_cons]
    omega
  rw [h5]
  rw [show List.drop 5 (0 :: 0 :: 0 :: 0 :: 0 :: t) = t from rfl]

/-- Decoding the stored-block chunking of any byte sequence appends exactly
that sequence to the output. -/
theorem stored_decode : ∀ fuelc data o fueli,
    data.length + 1 ≤ fuelc →
    (∀ b ∈ data, b < 256) →
    data.length + 1 ≤ fueli →
    inflateBlocks fueli (bytesBits (storedChunks fuelc data)) o = some (o ++ data) := by
  intro fuelc
  induction fuelc with
  | zero =>
    intro data o fueli h
    omega
  | succ fc ih =>
    intro data o fueli hfc hbytes hfi
    cases fueli with
    | zero => omega
    | succ fi =>
      rw [storedChunks]
      by_cases hle : data.length ≤ 65535
      · rw [if_pos hle]
        rw [show bytesBits (1 :: data.length % 256 :: data.length / 256 ::
            (65535 - data.length) % 256 :: (65535 - data.length) / 256 :: data) =
          1 :: 0 :: 0 :: 0 :: 0 :: 0 :: 0 :: 0 ::
            (lowBits (data.length % 256) 8 ++ (lowBits (data.length / 256) 8 ++
              (lowBits ((65535 - data.length) % 256) 8 ++
                (lowBits ((65535 - data.length) / 256) 8 ++ bytesBits data)))) from rfl]
        have ht : (lowBits (data.length % 256) 8 ++ (lowBits (data.length / 256) 8 ++
            (lowBits ((65535 - data.length) % 256) 8 ++
              (lowBits ((65535 - data.length) / 256) 8 ++
                bytesBits data)))).length % 8 = 0 := by
          simp only [List.length_append, lowBits_length, bytesBits_length]
          omega
        rw [inflateBlocks_stored fi 1 _ o ht]
        rw [← lowBits_split16 (65535 - data.length) (bytesBits data)]
        rw [← lowBits_split16 data.length
          (lowBits (65535 - data.length) 16 ++ bytesBits data)]
        rw [readBits_lowBits 16 data.length _ (by
          have h16 : (2 : Nat) ^ 16 = 65536 := by norm_num
          omega)]
        dsimp only
        rw [readBits_lowBits 16 (65535 - data.length) _ (by
          have h16 : (2 : Nat) ^ 16 = 65536 := by norm_num
          omega)]
        dsimp only
        rw [if_pos (show data.length + (65535 - data.length) = 65535 from by omega)]
        rw [show bytesBits data = bytesBits data ++ [] from (List.append_nil _).symm]
        rw [readBytes_bytesBits data [] hbytes]
        dsimp only
        rw [if_pos rfl]
      · rw [if_neg hle]
        rw [show bytesBits ((0 :: 255 :: 255 :: 0 :: 0 :: data.take 65535) ++
            storedChunks fc (data.drop 65535)) =
          0 :: 0 :: 0 :: 0 :: 0 :: 0 :: 0 :: 0 ::
            (lowBits 255 8 ++ (lowBits 255 8 ++ (lowBits 0 8 ++ (lowBits 0 8 ++
              bytesBits (data.take 65535 ++
                storedChunks fc (data.drop 65535)))))) from rfl]
        have ht : (lowBits 255 8 ++ (lowBits 255 8 ++ (lowBits 0 8 ++ (lowBits 0 8 ++
            bytesBits (data.take 65535 ++
              storedChunks fc (data.drop 65535)))))).length % 8 = 0 := by
          simp only [List.length_append, lowBits_length, bytesBits_length]
          omega
        rw [inflateBlocks_stored fi 0 _ o ht]
        rw [show lowBits 255 8 ++ (lowBits 255 8 ++ (lowBits 0 8 ++ (lowBits 0 8 ++
            bytesBits (data.take 65535 ++ storedChunks fc (data.drop 65535))))) =
          lowBits 65535 16 ++ (lowBits 0 16 ++
            bytesBits (data.take 65535 ++ storedChunks fc (data.drop 65535))) from rfl]
        rw [readBits_lowBits 16 65535 _ (by norm_num)]
        dsimp only
        rw [readBits_lowBits 16 0 _ (by norm_num)]
        dsimp only
        rw [if_pos rfl]
        rw [bytesBits_append]
        have hrb : readBytes 65535
            (bytesBits (data.take 65535) ++
              bytesBits (storedChunks fc (data.drop 65535))) =
            some (data.take 65535, bytesBits (storedChunks fc (data.drop 65535))) := by
          have h1 : (data.take 65535).length = 65535 := by
            rw [List.length_take]
            omega
          have h2 := readBytes_bytesBits (data.take 65535)
            (bytesBits (storedChunks fc (data.drop 65535)))
            (fun b hb => hbytes b (List.mem_of_mem_take hb))
          rw [h1] at h2
          exact h2
        rw [hrb]
        dsimp only
        rw [if_neg (by decide : ¬(0 = 1))]
        have hrec := ih (data.drop 65535) (o ++ data.take 65535) fi
          (by rw [List.length_drop]; omega)
          (fun b hb => hbytes b (List.mem_of_mem_drop hb))
          (by rw [List.length_drop]; omega)
        rw [hrec, List.append_assoc, List.take_append_drop]

/-- Round trip of the stored path. -/
theorem stored_roundtrip (input : List Nat) (hbytes : ∀ b ∈ input, b < 256) :
    inflate (compress_data_stored input) = some input := by
  rw [inflate, compress_data_stored]
  have hlen := storedChunks_length_ge (input.length + 1) input (le_refl _)
  have hdec := stored_decode (input.length + 1) input []
    ((storedChunks (input.length + 1) input).length + 1) (le_refl _) hbytes (by omega)
  rw [hdec, List.nil_append]

/-! ### Round trip of the dynamic path -/

/-- The `write_bits` calls of `write_huffman_lengths`, flattened. -/
theorem write_huffman_lengths_calls (w : BitWriter) :
    write_huffman_lengths FIXED_CODE_LENGTHS FIXED_CODE_LENGTHS_DISTANCE w =
      ((31, 5) :: (29, 5) :: (6, 4) ::
        ((CODE_LENGTH_ORDER.take 10).map (fun s => (CL_LENGTHS.getD s 0, 3)) ++
          (FIXED_CODE_LENGTHS ++ FIXED_CODE_LENGTHS_DISTANCE).map
            (fun ℓ => symbolCode CL_LENGTHS ℓ))).foldl
        (fun w c => w.write_bits c.1 c.2) w := by
  rw [write_huffman_lengths]
  conv_rhs => rw [List.foldl_cons, List.foldl_cons, List.foldl_cons, List.foldl_append,
    List.foldl_map, List.foldl_map]
  rfl

/-- Every fixed-table code length gets the 2-bit code-length code. -/
theorem clCall_valid (ℓ : Nat)
    (hmem : ℓ ∈ FIXED_CODE_LENGTHS ++ FIXED_CODE_LENGTHS_DISTANCE) :
    (symbolCode CL_LENGTHS ℓ).2 ≤ 16 ∧
      (symbolCode CL_LENGTHS ℓ).1 < 2 ^ (symbolCode CL_LENGTHS ℓ).2 := by
  have h2 : CL_LENGTHS.getD ℓ 0 = 2 := by
    have hall : ∀ x ∈ FIXED_CODE_LENGTHS ++ FIXED_CODE_LENGTHS_DISTANCE,
        CL_LENGTHS.getD x 0 = 2 := by decide
    exact hall ℓ hmem
  exact ⟨by simp only [symbolCode]; omega, reverseBits_lt _ _⟩

theorem cl_decode_closed : ∀ t < 19, CL_LENGTHS.getD t 0 ≠ 0 →
    decodeSym (buildDec CL_LENGTHS) 16 0 0 (symStream CL_LENGTHS t) =
      some (t, []) := by decide

theorem cl_nz_le15 : ∀ t < 19, CL_LENGTHS.getD t 0 ≠ 0 → t ≤ 15 := by decide

theorem cl_decode (s : Nat) (hs : s < 19) (hnz : CL_LENGTHS.getD s 0 ≠ 0)
    (rest : List Nat) :
    decodeSym (buildDec CL_LENGTHS) 16 0 0 (symStream CL_LENGTHS s ++ rest) =
      some (s, rest) := by
  have h := decodeSym_extend (buildDec CL_LENGTHS) 16 0 0 (symStream CL_LENGTHS s)
    s [] rest (cl_decode_closed s hs hnz)
  simpa using h

/-- Reading back a run of plain (0-15) code-length symbols recovers them. -/
theorem readCodeLengths_plain : ∀ ls acc : List Nat, ∀ fuel : Nat, ∀ rest : List Nat,
    ∀ target : Nat,
    (∀ ℓ ∈ ls, ℓ < 19 ∧ CL_LENGTHS.getD ℓ 0 ≠ 0) →
    ls.length + 1 ≤ fuel →
    target = acc.length + ls.length →
    readCodeLengths (buildDec CL_LENGTHS) fuel target acc
      (callBits (ls.map (fun ℓ => symbolCode CL_LENGTHS ℓ)) ++ rest) =
      some (acc.reverse ++ ls, rest) := by
  intro ls
  induction ls with
  | nil =>
    intro acc fuel rest target _ hfuel htarget
    cases fuel with
    | zero => omega
    | succ f =>
      subst htarget
      rw [readCodeLengths]
      rw [if_pos (show acc.length + ([] : List Nat).length ≤ acc.length by
        simp only [List.length_nil]; omega)]
      rw [if_pos (show acc.length = acc.length + ([] : List Nat).length by
        simp only [List.length_nil]; omega)]
      rw [List.append_nil]
      rfl
  | cons ℓ ls ih =>
    intro acc fuel rest target hok hfuel htarget
    obtain ⟨hl19, hlnz⟩ := hok ℓ (List.mem_cons_self _ _)
    cases fuel with
    | zero =>
      simp only [List.length_cons] at hfuel
      omega
    | succ f =>
      subst htarget
      rw [readCodeLengths]
      rw [if_neg (show ¬(acc.length + (ℓ :: ls).length ≤ acc.length) by
        simp only [List.length_cons]; omega)]
      rw [show callBits (List.map (fun ℓ => symbolCode CL_LENGTHS ℓ) (ℓ :: ls)) ++ rest =
        symStream CL_LENGTHS ℓ ++
          (callBits (List.map (fun ℓ => symbolCode CL_LENGTHS ℓ) ls) ++ rest) from by
        show (symStream CL_LENGTHS ℓ ++
          callBits (List.map (fun ℓ => symbolCode CL_LENGTHS ℓ) ls)) ++ rest = _
        rw [List.append_assoc]]
      rw [cl_decode ℓ hl19 hlnz]
      dsimp only
      rw [if_pos (cl_nz_le15 ℓ hl19 hlnz)]
      rw [ih (ℓ :: acc) f rest (acc.length + (ℓ :: ls).length)
        (fun x hx => hok x (List.mem_cons_of_mem _ hx))
        (by simp only [List.length_cons] at hfuel; omega)
        (by simp only [List.length_cons]; omega)]
      rw [List.reverse_cons, List.append_assoc, List.singleton_append]

/-- Parsing the code-length description written by this encoder yields back
exactly the fixed tables. -/
theorem parseDynHeader_desc (X : List Nat) :
    parseDynHeader (callBits ((31, 5) :: (29, 5) :: (6, 4) ::
        ((CODE_LENGTH_ORDER.take 10).map (fun s => (CL_LENGTHS.getD s 0, 3)) ++
          (FIXED_CODE_LENGTHS ++ FIXED_CODE_LENGTHS_DISTANCE).map
            (fun ℓ => symbolCode CL_LENGTHS ℓ))) ++ X) =
      some (FIXED_CODE_LENGTHS, FIXED_CODE_LENGTHS_DISTANCE, X) := by
  rw [show callBits ((31, 5) :: (29, 5) :: (6, 4) ::
      ((CODE_LENGTH_ORDER.take 10).map (fun s => (CL_LENGTHS.getD s 0, 3)) ++
        (FIXED_CODE_LENGTHS ++ FIXED_CODE_LENGTHS_DISTANCE).map
          (fun ℓ => symbolCode CL_LENGTHS ℓ))) ++ X =
    lowBits 31 5 ++ (lowBits 29 5 ++ (lowBits 6 4 ++
      (callBits ((CODE_LENGTH_ORDER.take 10).map (fun s => (CL_LENGTHS.getD s 0, 3))) ++
        (callBits ((FIXED_CODE_LENGTHS ++ FIXED_CODE_LENGTHS_DISTANCE).map
          (fun ℓ => symbolCode CL_LENGTHS ℓ)) ++ X)))) from by
    show (lowBits 31 5 ++ (lowBits 29 5 ++ (lowBits 6 4 ++
      callBits ((CODE_LENGTH_ORDER.take 10).map (fun s => (CL_LENGTHS.getD s 0, 3)) ++
        (FIXED_CODE_LENGTHS ++ FIXED_CODE_LENGTHS_DISTANCE).map
          (fun ℓ => symbolCode CL_LENGTHS ℓ))))) ++ X = _
    rw [callBits_append]
    simp only [List.append_assoc]]
  rw [parseDynHeader]
  rw [readBits_lowBits 5 31 _ (by norm_num)]
  dsimp only
  rw [readBits_lowBits 5 29 _ (by norm_num)]
  dsimp only
  rw [readBits_lowBits 4 6 _ (by norm_num)]
  dsimp only
  rw [show ∀ Z : List Nat, readClcl (6 + 4)
      (callBits ((CODE_LENGTH_ORDER.take 10).map
        (fun s => (CL_LENGTHS.getD s 0, 3))) ++ Z) =
      some ([0, 0, 0, 0, 2, 2, 2, 0, 0, 2], Z) from fun Z => rfl]
  dsimp only
  rw [show clLengths [0, 0, 0, 0, 2, 2, 2, 0, 0, 2] = CL_LENGTHS from by decide]
  have hrcl := readCodeLengths_plain
    (FIXED_CODE_LENGTHS ++ FIXED_CODE_LENGTHS_DISTANCE) []
    (31 + 257 + (29 + 1) + 1) X (31 + 257 + (29 + 1))
    (by decide) (by decide) (by decide)
  simp only [List.reverse_nil, List.nil_append] at hrcl
  rw [hrcl]
  dsimp only
  rw [List.take_left' (by decide : FIXED_CODE_LENGTHS.length = 31 + 257),
    List.drop_left' (by decide : FIXED_CODE_LENGTHS.length = 31 + 257)]

/-- A final dynamic block (`bfinal = 1`, `btype = 10`) parses its header and
hands the rest of the stream to the body decoder. -/
theorem inflateBlocks_dynamic (fuel : Nat) (t o : List Nat) :
    inflateBlocks (fuel + 1) (1 :: 0 :: 1 :: t) o =
      (match parseDynHeader t with
      | none => none
      | some (litL, distL, r3) =>
        match decodeBody (buildDec litL) (buildDec distL) (r3.length + 1) r3 o with
        | none => none
        | some (o', _) => some o') := by
  rw [inflateBlocks_succ]
  rw [show readBits 1 (1 :: 0 :: 1 :: t) = some (1, 0 :: 1 :: t) from rfl]
  dsimp only
  rw [show readBits 2 (0 :: 1 :: t) = some (2, t) from rfl]
  dsimp only
  rw [if_neg (by decide : ¬(2 = 0)), if_neg (by decide : ¬(2 = 1)), if_pos rfl]
  cases hp : parseDynHeader t with
  | none => rfl
  | some p =>
    obtain ⟨litL, distL, r3⟩ := p
    dsimp only
    cases hd : decodeBody (buildDec litL) (buildDec distL) (r3.length + 1) r3 o with
    | none => rfl
    | some q =>
      obtain ⟨o', r4⟩ := q
      rfl

/-- Round trip of the dynamic path: the reference decoder recovers the
input exactly. -/
theorem dynamic_roundtrip (input : List Nat) (hbytes : ∀ b ∈ input, b < 256) :
    ∃ out, compress_data_dynamic input = some out ∧ inflate out = some input := by
  obtain ⟨body, hlz, hdec, hval⟩ := lz77_compress_correct input
  have hok : ∀ ld ∈ body, SymOk ld := by
    intro ld hld
    have hv := hval ld hld
    cases ld with
    | blockStart b => exact hv.elim
    | literal v => exact hbytes v hv
    | lengthDistance l d => exact hv
  have hvalid : ∀ c ∈ (DYNAMIC_FIRST_BYTE_FINAL, 3) ::
      (((31, 5) :: (29, 5) :: (6, 4) ::
        ((CODE_LENGTH_ORDER.take 10).map (fun s => (CL_LENGTHS.getD s 0, 3)) ++
          (FIXED_CODE_LENGTHS ++ FIXED_CODE_LENGTHS_DISTANCE).map
            (fun ℓ => symbolCode CL_LENGTHS ℓ))) ++
        (symsCalls FIXED_CODE_LENGTHS FIXED_CODE_LENGTHS_DISTANCE body ++
          [symbolCode FIXED_CODE_LENGTHS 256])), c.2 ≤ 16 ∧ c.1 < 2 ^ c.2 := by
    intro c hc
    rcases List.mem_cons.mp hc with rfl | hc
    · exact ⟨by decide, by decide⟩
    rcases List.mem_append.mp hc with hc | hc
    · rcases List.mem_cons.mp hc with rfl | hc
      · exact ⟨by decide, by decide⟩
      rcases List.mem_cons.mp hc with rfl | hc
      · exact ⟨by decide, by decide⟩
      rcases List.mem_cons.mp hc with rfl | hc
      · exact ⟨by decide, by decide⟩
      rcases List.mem_append.mp hc with hc | hc
      · have h10 : ∀ c ∈ (CODE_LENGTH_ORDER.take 10).map
            (fun s => (CL_LENGTHS.getD s 0, 3)), c.2 ≤ 16 ∧ c.1 < 2 ^ c.2 := by decide
        exact h10 c hc
      · obtain ⟨ℓ, hmem, rfl⟩ := List.mem_map.mp hc
        exact clCall_valid ℓ hmem
    rcases List.mem_append.mp hc with hc | hc
    · exact symsCalls_valid body hok c hc
    · rcases List.mem_singleton.mp hc with rfl
      exact litCall_valid 256 (by omega)
  obtain ⟨hinv, hstream⟩ := runWriter_stream _ hvalid
  obtain ⟨wf, pad, hfin, hbuf⟩ := finish_stream _ hinv
  have hwriter : write_end_of_block FIXED_CODE_LENGTHS
      (body.foldl (fun w ld =>
        match ld with
        | LDPair.blockStart _ => w
        | LDPair.literal v => write_literal FIXED_CODE_LENGTHS w v
        | LDPair.lengthDistance l d =>
            write_length_distance FIXED_CODE_LENGTHS FIXED_CODE_LENGTHS_DISTANCE w l d)
        (write_huffman_lengths FIXED_CODE_LENGTHS FIXED_CODE_LENGTHS_DISTANCE
          (write_start_of_block false true BitWriter.new))) =
      runWriter ((DYNAMIC_FIRST_BYTE_FINAL, 3) ::
        (((31, 5) :: (29, 5) :: (6, 4) ::
          ((CODE_LENGTH_ORDER.take 10).map (fun s => (CL_LENGTHS.getD s 0, 3)) ++
            (FIXED_CODE_LENGTHS ++ FIXED_CODE_LENGTHS_DISTANCE).map
              (fun ℓ => symbolCode CL_LENGTHS ℓ))) ++
          (symsCalls FIXED_CODE_LENGTHS FIXED_CODE_LENGTHS_DISTANCE body ++
            [symbolCode FIXED_CODE_LENGTHS 256]))) := by
    rw [runWriter, List.foldl_cons, List.foldl_append, List.foldl_append]
    rw [← write_huffman_lengths_calls]
    rw [foldl_enc_eq_calls]
    rfl
  refine ⟨wf.buffer, ?_, ?_⟩
  · rw [compress_data_dynamic, hlz]
    dsimp only
    rw [hwriter, hfin]
  · have hbits : bytesBits wf.buffer = 1 :: 0 :: 1 ::
        (callBits ((31, 5) :: (29, 5) :: (6, 4) ::
          ((CODE_LENGTH_ORDER.take 10).map (fun s => (CL_LENGTHS.getD s 0, 3)) ++
            (FIXED_CODE_LENGTHS ++ FIXED_CODE_LENGTHS_DISTANCE).map
              (fun ℓ => symbolCode CL_LENGTHS ℓ))) ++
          (callBits (symsCalls FIXED_CODE_LENGTHS FIXED_CODE_LENGTHS_DISTANCE body) ++
            (symStream FIXED_CODE_LENGTHS 256 ++ pad))) := by
      rw [hbuf, hstream, callBits, callBits_append, callBits_append]
      rw [show lowBits (DYNAMIC_FIRST_BYTE_FINAL, 3).1 (DYNAMIC_FIRST_BYTE_FINAL, 3).2 =
        [1, 0, 1] from rfl]
      rw [show callBits [symbolCode FIXED_CODE_LENGTHS 256] =
        symStream FIXED_CODE_LENGTHS 256 ++ [] from rfl]
      simp only [List.append_nil, List.cons_append, List.nil_append, List.append_assoc]
    have hfuel : body.length + 1 ≤
        (callBits (symsCalls FIXED_CODE_LENGTHS FIXED_CODE_LENGTHS_DISTANCE body) ++
          (symStream FIXED_CODE_LENGTHS 256 ++ pad)).length + 1 := by
      have h1 := symsCalls_bits_length body hok
      simp only [List.length_append]
      omega
    have hdb := decodeBody_correct pad body
      ((callBits (symsCalls FIXED_CODE_LENGTHS FIXED_CODE_LENGTHS_DISTANCE body) ++
        (symStream FIXED_CODE_LENGTHS 256 ++ pad)).length + 1) [] hok hfuel
    rw [inflate, hbits, inflateBlocks_dynamic, parseDynHeader_desc]
    dsimp only
    rw [buildDec_fixed_lit, buildDec_fixed_dist, hdb]
    dsimp only
    rw [hdec]

/-- C1: for every input byte sequence `X` and every block type `T` in
{NoCompression, FixedHuffman, DynamicHuffman}, `compress_data(X, T)`
succeeds and decoding its output with the reference RFC 1951 decoder
(`inflate`: block header, stored / fixed / dynamic block parsing, canonical
Huffman decoding and LZ77 back-reference copying) yields exactly `X`. -/
theorem claim_C1 (input : List Nat) (hbytes : ∀ b ∈ input, b < 256) :
    ∀ btype : BType, ∃ out,
      compress_data input btype = some out ∧ inflate out = some input := by
  intro btype
  cases btype with
  | NoCompression =>
    exact ⟨compress_data_stored input, rfl, stored_roundtrip input hbytes⟩
  | FixedHuffman => exact fixed_roundtrip input hbytes
  | DynamicHuffman => exact dynamic_roundtrip input hbytes

theorem claim_C1_witness :
    (∀ b ∈ [68, 101, 102, 108, 97, 116, 101], b < 256) ∧
      ∀ btype : BType, ∃ out,
        compress_data [68, 101, 102, 108, 97, 116, 101] btype = some out ∧
          inflate out = some [68, 101, 102, 108, 97, 116, 101] :=
  ⟨by decide, claim_C1 [68, 101, 102, 108, 97, 116, 101] (by decide)⟩

end Deflate
